import Mathlib

set_option maxRecDepth 10000
set_option maxHeartbeats 1000000

/-!
Verification of the testcase-bundle ingestion and versioning engine of the
`jjudge-oj/apiserver` repository (package `services`, files
`problem.go` / the testcase-bundle source file, and the store layer).

The Go code is shallowly embedded: pure string manipulation is translated
function by function (`path.Clean`, `path.Base`, `path.Ext`, `strconv.Atoi`,
the `^\d+_\d+\.(in|out)$` filename pattern, `parseTestcaseFilename`,
`validateBundleFilename`), the streaming tar decode loop becomes a structural
recursion over the decoded entry stream (the gzip/tar container decoding
itself is represented by the entry stream parameter plus the gzip header
check), the scratch extraction directory becomes an explicit trace of written
paths with the deferred `os.RemoveAll` applied on every exit path, and the
persistence collaborator of `UpdateTestcaseBundle` becomes a record of oracle
responses.  Go `int` values are modelled as `Int` with explicit 64-bit
wrapping where overflow can occur, and `strconv.Atoi` performs the exact
64-bit range check of the source.
-/

namespace JJudge

/-! ## Go string primitives -/

/-- ASCII decimal digit, the byte class matched by `\d` in Go's RE2. -/
def isGoDigit (c : Char) : Bool := '0' ≤ c && c ≤ '9'

/-- Whitespace recognised by `strings.TrimSpace` (ASCII and Latin-1 set,
which covers every character reaching the filename dispatch). -/
def isGoSpace (c : Char) : Bool :=
  c = ' ' || c = '\t' || c = '\n' || c = '\x0b' || c = '\x0c' || c = '\r' ||
  c = '\x85' || c = '\xa0'

/-- `strings.TrimSpace`. -/
def goTrimSpace (s : String) : String :=
  String.mk (((s.data.dropWhile isGoSpace).reverse.dropWhile isGoSpace).reverse)

/-- `strings.ToLower` on the ASCII range (the suffixes compared against are
all ASCII). -/
def goToLowerChar (c : Char) : Char :=
  if 'A' ≤ c && c ≤ 'Z' then Char.ofNat (c.toNat + 32) else c

/-- `strings.ToLower`. -/
def goToLower (s : String) : String := String.mk (s.data.map goToLowerChar)

/-- List version of `strings.HasPrefix`. -/
def startsWithList : List Char → List Char → Bool
  | [], _ => true
  | _ :: _, [] => false
  | p :: ps, c :: cs => p = c && startsWithList ps cs

/-- List version of `strings.HasSuffix`. -/
def endsWithList (suf l : List Char) : Bool :=
  startsWithList suf.reverse l.reverse

/-- `strings.HasSuffix`. -/
def goHasSuffix (s suf : String) : Bool := endsWithList suf.data s.data

/-- `strings.TrimSuffix`. -/
def goTrimSuffixStr (s suf : String) : String :=
  if goHasSuffix s suf then String.mk (s.data.take (s.data.length - suf.data.length))
  else s

/-! ## Go `path` package -/

/-- Split on `/`, the component decomposition used to model `path.Clean`. -/
def splitSlash : List Char → List (List Char)
  | [] => [[]]
  | c :: rest =>
    if c = '/' then [] :: splitSlash rest
    else
      match splitSlash rest with
      | [] => [[c]]
      | h :: t => (c :: h) :: t

/-- Join components with `/`. -/
def joinSlash : List (List Char) → List Char
  | [] => []
  | [c] => c
  | c :: rest => c ++ '/' :: joinSlash rest

/-- The `..`-resolving component walk of `path.Clean`. -/
def cleanComps (rooted : Bool) : List (List Char) → List (List Char) → List (List Char)
  | out, [] => out.reverse
  | out, c :: rest =>
    if c = [] || c = ['.'] then cleanComps rooted out rest
    else if c = ['.', '.'] then
      match out with
      | o :: os => if o = ['.', '.'] then cleanComps rooted (c :: out) rest
                   else cleanComps rooted os rest
      | [] => if rooted then cleanComps rooted [] rest
              else cleanComps rooted [c] rest
    else cleanComps rooted (c :: out) rest

/-- `path.Clean` (lexical cleaning of slash-separated paths: drops empty and
`.` components, resolves `..` against preceding components, keeps leading
`..` components of relative paths, and returns `"."` for an empty result). -/
def pathClean (s : String) : String :=
  match s.data with
  | [] => "."
  | cs =>
    let rooted := startsWithList ['/'] cs
    let comps := cleanComps rooted [] (splitSlash cs)
    let body := joinSlash comps
    if rooted then String.mk ('/' :: body)
    else if body = [] then "."
    else String.mk body

/-- `path.Base`: strip trailing slashes, then keep everything after the last
slash; empty input gives `"."`, an all-slash input gives `"/"`. -/
def pathBase (s : String) : String :=
  match s.data with
  | [] => "."
  | cs =>
    let stripped := (cs.reverse.dropWhile (fun c => c = '/')).reverse
    if stripped = [] then "/"
    else String.mk ((stripped.reverse.takeWhile (fun c => c ≠ '/')).reverse)

/-- Scan of `path.Ext`, walking the reversed characters: stops at a slash,
returns the suffix from the final dot. -/
def extScan : List Char → List Char → List Char
  | [], _ => []
  | c :: rest, acc =>
    if c = '/' then []
    else if c = '.' then '.' :: acc
    else extScan rest (c :: acc)

/-- `path.Ext`: the suffix of the final slash-separated element starting at
its final dot, or empty if there is no dot. -/
def pathExt (s : String) : String := String.mk (extScan s.data.reverse [])

/-! ## `strconv.Atoi` -/

/-- Accumulating decimal conversion over a character list; `none` on the
first non-digit character. -/
def digitsValGo : List Char → Nat → Option Nat
  | [], acc => some acc
  | c :: rest, acc =>
    if isGoDigit c then digitsValGo rest (acc * 10 + (c.toNat - '0'.toNat))
    else none

/-- Decimal value of a digit list processed left to right; `none` on an empty
list or a non-digit character (`strconv` syntax error). -/
def digitsValN : List Char → Option Nat
  | [] => none
  | l => digitsValGo l 0

/-- Unsigned decimal value of a digit list (total version used in
specifications; agrees with `digitsValN` on non-empty all-digit lists). -/
def digitsVal (l : List Char) : Nat :=
  l.foldl (fun acc c => acc * 10 + (c.toNat - '0'.toNat)) 0

/-- Largest Go `int` (64-bit) value. -/
def maxGoInt : Nat := 9223372036854775807

/-- `strconv.ParseInt(s, 10, 64)` on the character list of `s`: optional
sign, non-empty run of ASCII digits, and a 64-bit range check. -/
def atoiList : List Char → Option Int
  | [] => none
  | c :: rest =>
    if c = '-' then
      match digitsValN rest with
      | none => none
      | some v => if v ≤ maxGoInt + 1 then some (-(v : Int)) else none
    else if c = '+' then
      match digitsValN rest with
      | none => none
      | some v => if v ≤ maxGoInt then some (v : Int) else none
    else
      match digitsValN (c :: rest) with
      | none => none
      | some v => if v ≤ maxGoInt then some (v : Int) else none

/-- `strconv.Atoi` = `strconv.ParseInt(s, 10, 64)`; `none` models a non-nil
error. -/
def strconvAtoi (s : String) : Option Int := atoiList s.data

/-! ## Filename grammar and parsing -/

/-- The ingestion error taxonomy: one constructor per distinct error return
of `GetTestcaseBundleFromArchive` / `readTestcaseFromTarGz` /
`parseTestcaseFilename` / `validateBundleFilename`, carrying the values the
Go code formats into the message. -/
inductive IngestErr where
  /-- "empty bundle data" -/
  | emptyBundleData
  /-- "zip bundles are not supported" -/
  | zipNotSupported
  /-- "invalid tar.gz bundle" (gzip or tar decode failure) -/
  | invalidTarGz
  /-- "unsupported bundle format" -/
  | unsupportedFormat
  /-- "bundle contains unsupported entries" (non-regular, non-directory) -/
  | unsupportedEntries
  /-- "invalid testcase filename" (no `%s`: cleaned name was "." or held a backslash) -/
  | invalidFilenamePlain
  /-- "bundle must not contain directories" -/
  | containsDirectories
  /-- "invalid testcase filename: %s" -/
  | invalidFilename (base : String)
  /-- "testcase group %d does not exist" -/
  | groupNotExist (g : Int)
  /-- "duplicate testcase input: %d_%d.in" -/
  | duplicateInput (g t : Int)
  /-- "duplicate testcase output: %d_%d.out" -/
  | duplicateOutput (g t : Int)
  /-- "failed to create bundle extract directory" / "failed to extract testcase" -/
  | extractFailed
  /-- "bundle has no testcases" -/
  | noTestcases
  /-- "testcase %d_%d must have both .in and .out files" -/
  | incompletePair (g t : Int)
  /-- "testcase order must be consecutive in group %d" -/
  | notConsecutive (g : Int)
deriving Repr, DecidableEq

/-- The `\.(in|out)$` tail of the pattern: a dot followed by exactly `in` or
`out`. -/
def matchTailDot : List Char → Bool
  | [] => false
  | c :: r4 => c == '.' && (r4 == ['i', 'n'] || r4 == ['o', 'u', 't'])

/-- The `_\d+\.(in|out)$` tail of the pattern: an underscore, a non-empty
digit run, then the dot tail. -/
def matchTailUnder : List Char → Bool
  | [] => false
  | c :: r2 =>
    c == '_' && decide (r2.takeWhile isGoDigit ≠ []) &&
      matchTailDot (r2.dropWhile isGoDigit)

/-- `testcaseFilenamePattern.MatchString`, the anchored RE2 pattern
`^\d+_\d+\.(in|out)$`.  Because `_` and `.` are not in the `\d` class, the
regex match is equivalent to this deterministic maximal-munch scan. -/
def matchTestcaseFilenamePattern (s : String) : Bool :=
  decide (s.data.takeWhile isGoDigit ≠ []) &&
    matchTailUnder (s.data.dropWhile isGoDigit)

/-- `strings.TrimPrefix(ext, ".")` for the extension computed by `path.Ext`. -/
def trimDotStart (s : String) : String :=
  match s.data with
  | '.' :: rest => String.mk rest
  | _ => s

/-- List version of `strings.Split(name, "_")`. -/
def splitUnder : List Char → List (List Char)
  | [] => [[]]
  | c :: rest =>
    if c = '_' then [] :: splitUnder rest
    else
      match splitUnder rest with
      | [] => [[c]]
      | h :: t => (c :: h) :: t

/-- `parseTestcaseFilename`: split the base name into
`<groupOrder>_<testcaseOrder>.<ext>` using `path.Ext`, `strings.TrimSuffix`
and `strings.Split`, convert both parts with `strconv.Atoi`, reject negative
values. -/
def parseTestcaseFilename (base : String) : Except IngestErr (Int × Int × String) :=
  let extFull := pathExt base
  let ext := trimDotStart extFull
  let name := goTrimSuffixStr base (String.mk ('.' :: ext.data))
  let parts := splitUnder name.data
  if ext = "" || parts.length ≠ 2 then .error (.invalidFilename base)
  else
    match parts with
    | [p1, p2] =>
      match strconvAtoi (String.mk p1) with
      | none => .error (.invalidFilename base)
      | some groupOrder =>
        match strconvAtoi (String.mk p2) with
        | none => .error (.invalidFilename base)
        | some testcaseOrder =>
          if groupOrder < 0 || testcaseOrder < 0 then .error (.invalidFilename base)
          else .ok (groupOrder, testcaseOrder, ext)
    | _ => .error (.invalidFilename base)

/-- `validateBundleFilename`: clean the entry name, require it to be a bare
base name (no directories), reject backslashes, and require the
`^\d+_\d+\.(in|out)$` pattern. -/
def validateBundleFilename (name : String) : Except IngestErr Unit :=
  if pathClean name = "." then .error .invalidFilenamePlain
  else if pathBase (pathClean name) ≠ pathClean name then .error .containsDirectories
  else if (pathBase (pathClean name)).data.contains '\\' then .error .invalidFilenamePlain
  else if ¬ matchTestcaseFilenamePattern (pathBase (pathClean name)) then
    .error (.invalidFilename (pathBase (pathClean name)))
  else .ok ()

/-! ## Content addresser: `sha256.Sum256` and `hex.EncodeToString` -/

/-- Truncation to a 32-bit word. -/
def w32 (x : Nat) : Nat := x % 4294967296

/-- 32-bit right rotation (for inputs below `2^32`). -/
def rotr32 (n x : Nat) : Nat := w32 ((x >>> n) + (x % 2 ^ n) * 2 ^ (32 - n))

/-- SHA-256 `Ch` function. -/
def chOp (e f g : Nat) : Nat := (e &&& f) ^^^ ((2 ^ 32 - 1 - w32 e) &&& g)

/-- SHA-256 `Maj` function. -/
def majOp (a b c : Nat) : Nat := (a &&& b) ^^^ (a &&& c) ^^^ (b &&& c)

/-- SHA-256 big sigma 0. -/
def bigSigma0 (x : Nat) : Nat := rotr32 2 x ^^^ rotr32 13 x ^^^ rotr32 22 x

/-- SHA-256 big sigma 1. -/
def bigSigma1 (x : Nat) : Nat := rotr32 6 x ^^^ rotr32 11 x ^^^ rotr32 25 x

/-- SHA-256 small sigma 0. -/
def smallSigma0 (x : Nat) : Nat := rotr32 7 x ^^^ rotr32 18 x ^^^ (x >>> 3)

/-- SHA-256 small sigma 1. -/
def smallSigma1 (x : Nat) : Nat := rotr32 17 x ^^^ rotr32 19 x ^^^ (x >>> 10)

/-- The 64 SHA-256 round constants. -/
def sha256K : List Nat :=
  [1116352408, 1899447441, 3049323471, 3921009573, 961987163,
   1508970993, 2453635748, 2870763221, 3624381080, 310598401,
   607225278, 1426881987, 1925078388, 2162078206, 2614888103,
   3248222580, 3835390401, 4022224774, 264347078, 604807628,
   770255983, 1249150122, 1555081692, 1996064986, 2554220882,
   2821834349, 2952996808, 3210313671, 3336571891, 3584528711,
   113926993, 338241895, 666307205, 773529912, 1294757372,
   1396182291, 1695183700, 1986661051, 2177026350, 2456956037,
   2730485921, 2820302411, 3259730800, 3345764771, 3516065817,
   3600352804, 4094571909, 275423344, 430227734, 506948616,
   659060556, 883997877, 958139571, 1322822218, 1537002063,
   1747873779, 1955562222, 2024104815, 2227730452, 2361852424,
   2428436474, 2756734187, 3204031479, 3329325298]

/-- SHA-256 working state (eight 32-bit chaining words). -/
structure Hash8 where
  a : Nat
  b : Nat
  c : Nat
  d : Nat
  e : Nat
  f : Nat
  g : Nat
  h : Nat
deriving Repr, DecidableEq

/-- SHA-256 initial chaining value. -/
def sha256init : Hash8 :=
  { a := 1779033703, b := 3144134277, c := 1013904242, d := 2773480762,
    e := 1359893119, f := 2600822924, g := 528734635, h := 1541459225 }

/-- Merkle–Damgård padding: append `0x80`, zero bytes to 56 mod 64, then the
bit length as a 64-bit big-endian integer. -/
def sha256pad (msg : List Nat) : List Nat :=
  let len := msg.length
  let z := (119 - len % 64) % 64
  let bits := 8 * len
  msg ++ 0x80 :: List.replicate z 0 ++
    [(bits >>> 56) % 256, (bits >>> 48) % 256, (bits >>> 40) % 256, (bits >>> 32) % 256,
     (bits >>> 24) % 256, (bits >>> 16) % 256, (bits >>> 8) % 256, bits % 256]

/-- Fuel-driven block splitter (each step consumes at least one byte, so a
fuel of the list length is enough; structural recursion keeps it
kernel-reducible). -/
def chunkBlocksGo : Nat → List Nat → List (List Nat)
  | 0, _ => []
  | _, [] => []
  | fuel + 1, x :: rest => ((x :: rest).take 64) :: chunkBlocksGo fuel ((x :: rest).drop 64)

/-- Split a byte list into 64-byte blocks. -/
def chunkBlocks (l : List Nat) : List (List Nat) := chunkBlocksGo l.length l

/-- Big-endian 4-byte groups to 32-bit words. -/
def toWords : List Nat → List Nat
  | a :: b :: c :: d :: rest => (((a * 256 + b) * 256 + c) * 256 + d) :: toWords rest
  | _ => []

/-- Extend the 16-word block schedule by `n` further words. -/
def extendW : List Nat → Nat → List Nat
  | w, 0 => w
  | w, n + 1 =>
    let i := w.length
    let nw := w32 (smallSigma1 (w.getD (i - 2) 0) + w.getD (i - 7) 0 +
                   smallSigma0 (w.getD (i - 15) 0) + w.getD (i - 16) 0)
    extendW (w ++ [nw]) n

/-- One SHA-256 compression round. -/
def shaRound (s : Hash8) (kw : Nat × Nat) : Hash8 :=
  let t1 := w32 (s.h + bigSigma1 s.e + chOp s.e s.f s.g + kw.1 + kw.2)
  let t2 := w32 (bigSigma0 s.a + majOp s.a s.b s.c)
  { a := w32 (t1 + t2), b := s.a, c := s.b, d := s.c,
    e := w32 (s.d + t1), f := s.e, g := s.f, h := s.g }

/-- Compress one 64-byte block into the chaining state. -/
def compressBlock (st : Hash8) (block : List Nat) : Hash8 :=
  let ws := extendW (toWords block) 48
  let r := (sha256K.zip ws).foldl shaRound st
  { a := w32 (st.a + r.a), b := w32 (st.b + r.b), c := w32 (st.c + r.c), d := w32 (st.d + r.d),
    e := w32 (st.e + r.e), f := w32 (st.f + r.f), g := w32 (st.g + r.g), h := w32 (st.h + r.h) }

/-- Big-endian byte decomposition of a 32-bit word. -/
def wordBE (w : Nat) : List Nat :=
  [(w >>> 24) % 256, (w >>> 16) % 256, (w >>> 8) % 256, w % 256]

/-- Serialise the chaining state into the 32-byte digest. -/
def digestBytes (s : Hash8) : List Nat :=
  wordBE s.a ++ wordBE s.b ++ wordBE s.c ++ wordBE s.d ++
  wordBE s.e ++ wordBE s.f ++ wordBE s.g ++ wordBE s.h

/-- `sha256.Sum256`: the 32-byte SHA-256 digest of a byte sequence. -/
def sha256bytes (data : List Nat) : List Nat :=
  digestBytes ((chunkBlocks (sha256pad data)).foldl compressBlock sha256init)

/-- The sixteen lowercase hexadecimal digits used by `hex.EncodeToString`. -/
def lowerHexDigits : List Char := "0123456789abcdef".data

/-- Lowercase hexadecimal digit of a nibble. -/
def hexChar (n : Nat) : Char := lowerHexDigits.getD (n % 16) '0'

/-- `hex.EncodeToString` character stream: two lowercase digits per byte. -/
def hexBytes : List Nat → List Char
  | [] => []
  | b :: rest => hexChar (b / 16) :: hexChar b :: hexBytes rest

/-- `hex.EncodeToString(sha256.Sum256(data))`: the bundle content hash. -/
def sha256hex (data : List Nat) : String := String.mk (hexBytes (sha256bytes data))

/-! ## Data model (`types` package) -/

/-- `types.Testcase`: one input/output pair. -/
structure Testcase where
  id : Int := 0
  orderID : Int := 0
  testcaseGroupID : Int := 0
  input : String := ""
  output : String := ""
  isHidden : Bool := false
deriving Repr, DecidableEq

/-- `types.TestcaseGroup`. -/
structure TestcaseGroup where
  id : Int := 0
  orderID : Int := 0
  problemID : Int := 0
  name : String := ""
  testcases : List Testcase := []
  points : Int := 0
deriving Repr, DecidableEq

/-- `types.TestcaseBundle`. -/
structure TestcaseBundle where
  objectKey : String := ""
  sha256 : String := ""
  testcaseGroups : List TestcaseGroup := []
  version : Int := 0
deriving Repr, DecidableEq

/-- `types.Problem` (timestamps as integers). -/
structure Problem where
  id : Int := 0
  title : String := ""
  description : String := ""
  difficulty : Int := 0
  timeLimit : Int := 0
  memoryLimit : Int := 0
  testcaseBundle : TestcaseBundle := {}
  tags : List String := []
  createdAt : Int := 0
  updatedAt : Int := 0
deriving Repr, DecidableEq

/-! ## Group reconciler state -/

/-- The per-testcase flag pair of `readTestcaseFromTarGz` (`have .in`,
`have .out`). -/
structure FlagPair where
  inFlag : Bool := false
  outFlag : Bool := false
deriving Repr, DecidableEq

/-- Association-list model of the Go `map[int]*pair`: lookup by testcase
order. -/
def lookupOrd : List (Int × FlagPair) → Int → Option FlagPair
  | [], _ => none
  | (t', p) :: rest, t => if t' = t then some p else lookupOrd rest t

/-- Map update: replace the binding of an existing key, append a new key at
the end (Go map insert followed by in-place mutation through the pointer;
iteration order of the orders is irrelevant to observable results because the
collected keys are sorted before use). -/
def setOrd : List (Int × FlagPair) → Int → FlagPair → List (Int × FlagPair)
  | [], t, p => [(t, p)]
  | (t', p') :: rest, t, p =>
    if t' = t then (t, p) :: rest else (t', p') :: setOrd rest t p

/-- The state `groupOrders []map[int]*pair`: one orders map per declared
group. -/
abbrev GroupsState := List (List (Int × FlagPair))

/-- Lines 115–133 of the decode loop: fetch-or-create the pair for
`(groupOrder, testcaseOrder)` and set the flag for `ext`, failing on a
duplicate. -/
def applyEntryFlag (st : GroupsState) (g t : Int) (ext : String) (base : String) :
    Except IngestErr GroupsState :=
  if ext = "in" then
    if ((lookupOrd (st.getD g.toNat []) t).getD {}).inFlag then .error (.duplicateInput g t)
    else .ok (st.set g.toNat (setOrd (st.getD g.toNat []) t
      { (lookupOrd (st.getD g.toNat []) t).getD {} with inFlag := true }))
  else if ext = "out" then
    if ((lookupOrd (st.getD g.toNat []) t).getD {}).outFlag then .error (.duplicateOutput g t)
    else .ok (st.set g.toNat (setOrd (st.getD g.toNat []) t
      { (lookupOrd (st.getD g.toNat []) t).getD {} with outFlag := true }))
  else .error (.invalidFilename base)

/-! ## Archive decoder -/

/-- One decoded tar entry: its header name, the `FileInfo` directory and
regular-file classification, and whether extracting its payload to the
scratch directory succeeds (`extractOk = false` models an I/O failure of
`os.OpenFile` / `io.Copy` / `Close` for that entry). -/
structure TarEntry where
  name : String
  isDir : Bool := false
  isRegular : Bool := true
  extractOk : Bool := true
deriving Repr, DecidableEq

/-- The decoded tar stream: `some e` is an entry yielded by `tar.Reader.Next`,
`none` is a mid-stream decode error (the Go loop maps it to
"invalid tar.gz bundle"); the end of the list is `io.EOF`. -/
abbrev TarStream := List (Option TarEntry)

/-- `filepath.Join(tempDir, base)` for a cleaned scratch directory path and a
validated flat base name. -/
def joinPath (tempDir base : String) : String :=
  String.mk (tempDir.data ++ '/' :: base.data)

/-- The entry loop of `readTestcaseFromTarGz` (lines 88–148): skip
directories, reject non-regular entries, validate and parse the name, check
the group bound, set the flags, and extract the payload to the scratch
directory.  Returns the loop outcome together with the list of scratch paths
created so far (the extraction side-effect trace). -/
def tarLoop (numGroups : Nat) (tempDir : String) :
    TarStream → GroupsState → Nat → List String →
    (Except IngestErr (GroupsState × Nat)) × List String
  | [], st, count, written => (.ok (st, count), written)
  | none :: _, _, _, written => (.error .invalidTarGz, written)
  | some e :: rest, st, count, written =>
    if e.isDir then tarLoop numGroups tempDir rest st count written
    else if ¬ e.isRegular then (.error .unsupportedEntries, written)
    else
      match validateBundleFilename e.name with
      | .error err => (.error err, written)
      | .ok _ =>
        match parseTestcaseFilename (pathBase (pathClean e.name)) with
        | .error err => (.error err, written)
        | .ok (g, t, ext) =>
          if g < 0 || (numGroups : Int) ≤ g then (.error (.groupNotExist g), written)
          else
            match applyEntryFlag st g t ext (pathBase (pathClean e.name)) with
            | .error err => (.error err, written)
            | .ok st' =>
              if e.extractOk then
                tarLoop numGroups tempDir rest st' (count + 1)
                  (written ++ [joinPath tempDir (pathBase (pathClean e.name))])
              else (.error .extractFailed,
                    written ++ [joinPath tempDir (pathBase (pathClean e.name))])

/-- Lines 159–165: collect the referenced orders of one group, failing on the
first pair missing its input or output flag. -/
def collectOrders (g : Int) : List (Int × FlagPair) → Except IngestErr (List Int)
  | [] => .ok []
  | (t, p) :: rest =>
    if !p.inFlag || !p.outFlag then .error (.incompletePair g t)
    else (collectOrders g rest).map (t :: ·)

/-- Lines 168–172: the zero-based contiguity check over the sorted orders
(`expected` is the running index). -/
def consecutiveFrom : Int → List Int → Bool
  | _, [] => true
  | e, o :: rest => o = e && consecutiveFrom (e + 1) rest

/-- The per-group tail of the decode pass (lines 158–172): completeness
check, `sort.Ints`, contiguity check; yields the ascending order list.
`sort.Ints` is modelled by insertion sort, which produces the same sorted
sequence. -/
def checkGroupOrders (g : Int) (orders : List (Int × FlagPair)) : Except IngestErr (List Int) :=
  (collectOrders g orders).bind (fun ks =>
    if consecutiveFrom 0 (List.insertionSort (· ≤ ·) ks) then
      .ok (List.insertionSort (· ≤ ·) ks)
    else .error (.notConsecutive g))

/-- Append the parsed, sorted testcase orders to a group's testcase list
(lines 174–178): each appended testcase carries only its `OrderID`. -/
def appendParsed (grp : TestcaseGroup) (orders : List Int) : TestcaseGroup :=
  { grp with testcases := grp.testcases ++ orders.map (fun t => { orderID := t : Testcase }) }

/-- Lines 154–179: walk the per-group orders maps alongside the declared
groups, skipping groups with no referenced testcases and appending the
checked, sorted orders to the rest. -/
def finalizeGroups (g : Int) : List (List (Int × FlagPair)) → List TestcaseGroup →
    Except IngestErr (List TestcaseGroup)
  | [], groups => .ok groups
  | _ :: _, [] => .ok []
  | orders :: restO, grp :: restG =>
    if orders.length = 0 then
      (finalizeGroups (g + 1) restO restG).map (grp :: ·)
    else
      match checkGroupOrders g orders with
      | .error e => .error e
      | .ok sorted => (finalizeGroups (g + 1) restO restG).map (appendParsed grp sorted :: ·)

/-- `readTestcaseFromTarGz`, instrumented with the scratch-directory trace:
the first component is the function's return value, the second is the list of
extraction artifacts left on the filesystem after the call (the deferred
`os.RemoveAll(tempDir)` runs on every return path after the directory is
created). -/
def readTestcaseFromTarGzCore (tempDir : String) (entries : TarStream)
    (tcGroups : List TestcaseGroup) :
    (Except IngestErr (List TestcaseGroup)) × List String :=
  let init : GroupsState := List.replicate tcGroups.length []
  let r := tarLoop tcGroups.length tempDir entries init 0 []
  let artifacts := tempDir :: r.2
  let out : Except IngestErr (List TestcaseGroup) :=
    match r.1 with
    | .error e => .error e
    | .ok (st, count) =>
      if count = 0 then .error .noTestcases
      else finalizeGroups 0 st tcGroups
  (out, artifacts.filter (fun p => !(p == tempDir || startsWithList (tempDir.data ++ ['/']) p.data)))

/-- `readTestcaseFromTarGz` proper: the manifest result of the decode pass. -/
def readTestcaseFromTarGz (entries : TarStream) (tcGroups : List TestcaseGroup) :
    Except IngestErr (List TestcaseGroup) :=
  (readTestcaseFromTarGzCore "testcase-bundle-0" entries tcGroups).1

/-- The header check of `gzip.NewReader`: the two magic bytes `1f 8b`, the
deflate method byte `8`, and a full 10-byte header must be present; the
decoded entry stream itself is the `TarStream` oracle. -/
def gzipHeaderOk (data : List Nat) : Bool :=
  match data with
  | m1 :: m2 :: cm :: _ => m1 = 0x1f && m2 = 0x8b && cm = 8 && decide (10 ≤ data.length)
  | _ => false

/-- `ProblemService.GetTestcaseBundleFromArchive`: reject empty data, compute
the content hash, dispatch on the trimmed lowercased filename suffix
(`.zip` rejected, `.tar.gz`/`.tgz` decoded, anything else unsupported), and
run the decode pass.  `entries` is the tar entry stream that decompressing
`data` would yield. -/
def GetTestcaseBundleFromArchive (filename : String) (data : List Nat)
    (entries : TarStream) (tcGroups : List TestcaseGroup) :
    Except IngestErr TestcaseBundle :=
  if data.length = 0 then .error .emptyBundleData
  else if goHasSuffix (goToLower (goTrimSpace filename)) ".zip" then .error .zipNotSupported
  else if goHasSuffix (goToLower (goTrimSpace filename)) ".tar.gz" ||
          goHasSuffix (goToLower (goTrimSpace filename)) ".tgz" then
    if ¬ gzipHeaderOk data then .error .invalidTarGz
    else
      match readTestcaseFromTarGz entries tcGroups with
      | .error e => .error e
      | .ok updatedGroups =>
        .ok { objectKey := filename, sha256 := sha256hex data, testcaseGroups := updatedGroups }
  else .error .unsupportedFormat

/-! ## Version reconciliation protocol (`UpdateTestcaseBundle`) -/

/-- Errors surfaced by the persistence collaborator; `notFound` is
`store.ErrNotFound`, `failure n` any other distinguishable error. -/
inductive StoreErr where
  | notFound
  | failure (tag : Nat)
deriving Repr, DecidableEq

deriving instance DecidableEq for Except

/-- The persistence collaborator's responses for one call:
`latestResult` is what `repo.GetLatestTestcaseBundle` returns, and
`problemResult` what `repo.Get` returns for the owning problem. -/
structure RepoView where
  latestResult : Except StoreErr TestcaseBundle
  problemResult : Except StoreErr Problem
deriving Repr, DecidableEq

/-- 64-bit two's-complement wrap of Go `int` addition. -/
def int64wrap (z : Int) : Int := (z + 2 ^ 63) % 2 ^ 64 - 2 ^ 63

/-- `ProblemService.UpdateTestcaseBundle`: `.ok none` models a successful
no-op (digest match, no new version created); `.ok (some b)` models a call to
`repo.AddTestcaseBundleVersion` with bundle `b`; `.error e` models the error
returned before any persistence call. -/
def UpdateTestcaseBundle (repo : RepoView) (bundle : TestcaseBundle) :
    Except StoreErr (Option TestcaseBundle) :=
  match repo.latestResult with
  | .error e =>
    if e ≠ .notFound then .error e
    else
      match repo.problemResult with
      | .error fetchErr => .error fetchErr
      | .ok problem =>
        let current := problem.testcaseBundle
        -- err ≠ nil on this path, so the digest no-op check cannot fire
        let v : Int := if current.version = 0 then 1 else int64wrap (current.version + 1)
        .ok (some { bundle with version := v })
  | .ok current =>
    if current.sha256 ≠ "" && current.sha256 = bundle.sha256 then .ok none
    else
      let v : Int := if current.version = 0 then 1 else int64wrap (current.version + 1)
      .ok (some { bundle with version := v })

/-! ## Specification views of the decode pass -/

/-- Ascending integer sequence `0, 1, …, m-1`. -/
def intRange (m : Nat) : List Int := (List.range m).map (fun i : Nat => (i : Int))

/-- The parsed `(groupOrder, testcaseOrder, kind)` triple an entry
contributes, if any: directories contribute nothing; other entries contribute
their validated parse result. -/
def entryTriple (oe : Option TarEntry) : Option (Int × Int × String) :=
  match oe with
  | none => none
  | some e =>
    if e.isDir then none
    else (parseTestcaseFilename (pathBase (pathClean e.name))).toOption

/-- An entry the decode loop accepts without failing: a directory (skipped),
or a regular file with a validated, parseable name whose extraction
succeeds. -/
def validEntry (oe : Option TarEntry) : Bool :=
  match oe with
  | none => false
  | some e =>
    e.isDir ||
      (e.isRegular && e.extractOk &&
        (match validateBundleFilename e.name with | .ok _ => true | .error _ => false) &&
        (match parseTestcaseFilename (pathBase (pathClean e.name)) with
          | .ok _ => true | .error _ => false))

/-- The triples contributed by a stream, in order. -/
def triplesOf (es : TarStream) : List (Int × Int × String) := es.filterMap entryTriple

/-- A triple referencing a declared group with a recognised kind. -/
def tripleInBounds (numGroups : Nat) (tr : Int × Int × String) : Bool :=
  decide (0 ≤ tr.1) && decide (tr.1 < (numGroups : Int)) &&
    (tr.2.2 == "in" || tr.2.2 == "out")

/-- The input flag recorded for `(g, t)`. -/
def flagInAt (st : GroupsState) (g t : Int) : Bool :=
  ((lookupOrd (st.getD g.toNat []) t).getD {}).inFlag

/-- The output flag recorded for `(g, t)`. -/
def flagOutAt (st : GroupsState) (g t : Int) : Bool :=
  ((lookupOrd (st.getD g.toNat []) t).getD {}).outFlag

/-- The referenced testcase orders of group `g`. -/
def keysAt (st : GroupsState) (g : Int) : List Int := (st.getD g.toNat []).map Prod.fst

/-- The triple multiset of a complete valid archive: for each declared group
`g < n`, an input and an output entry for every testcase order below `k g`. -/
def canonicalTriples (k : Nat → Nat) (n : Nat) : List (Int × Int × String) :=
  (List.range n).bind (fun g => (List.range (k g)).bind
    (fun t => [((g : Int), (t : Int), "in"), ((g : Int), (t : Int), "out")]))

/-- The groups a successful ingestion of a complete valid archive returns:
each declared group receives the ascending orders `0..k g - 1` appended to
its testcase list. -/
def expectedGroups (k : Nat → Nat) : Nat → List TestcaseGroup → List TestcaseGroup
  | _, [] => []
  | g, grp :: rest => appendParsed grp (intRange (k g)) :: expectedGroups k (g + 1) rest

/-! ## Hash digest shape lemmas -/

theorem hexBytes_length (l : List Nat) : (hexBytes l).length = 2 * l.length := by
  induction l with
  | nil => rfl
  | cons b rest ih => simp [hexBytes, ih]; omega

theorem sha256bytes_length (data : List Nat) : (sha256bytes data).length = 32 := by
  unfold sha256bytes
  simp [digestBytes, wordBE]

theorem hexChar_mem (n : Nat) : hexChar n ∈ lowerHexDigits := by
  unfold hexChar
  have h16 : n % 16 < 16 := Nat.mod_lt _ (by norm_num)
  set m := n % 16 with hm
  interval_cases m <;> decide

theorem hexBytes_mem (l : List Nat) : ∀ c ∈ hexBytes l, c ∈ lowerHexDigits := by
  induction l with
  | nil => intro c hc; cases hc
  | cons b rest ih =>
    intro c hc
    rcases hc with _ | ⟨_, hc⟩
    · exact hexChar_mem _
    · rcases hc with _ | ⟨_, hc⟩
      · exact hexChar_mem _
      · exact ih c hc

/-! ## Claim theorems -/

/-- C2 counterexample: the persistence collaborator reports no existing
bundle (`store.ErrNotFound` from `GetLatestTestcaseBundle`), yet the new
bundle is persisted with version 2, not 1, because the service falls back to
the problem row's embedded bundle (version 1, exactly the state
`ProblemService.Create` leaves behind). -/
theorem C2_counterexample :
    UpdateTestcaseBundle
        { latestResult := .error .notFound,
          problemResult := .ok { testcaseBundle := { objectKey := "old.tar.gz", sha256 := "aa", version := 1 } } }
        { objectKey := "new.tar.gz", sha256 := "bb" } =
      .ok (some { objectKey := "new.tar.gz", sha256 := "bb", version := 2 }) ∧
    (2 : Int) ≠ 1 := by
  exact ⟨by decide, by decide⟩

/-- C2 (amended): the reconciliation has these cases: a reported current
bundle with a non-empty digest equal to the new digest is a no-op; a reported
current bundle otherwise persists the new bundle with version 1 when the
current version is 0, else current.version + 1; when the collaborator reports
`ErrNotFound`, the service falls back to the problem row's embedded bundle and
versions against it (so version 1 only when that embedded version is 0), with
no digest no-op on that path; other lookup errors and problem-fetch errors
propagate. -/
theorem C2_update_bundle_state_machine (repo : RepoView) (bundle current : TestcaseBundle)
    (problem : Problem) :
    (repo.latestResult = .ok current → current.sha256 ≠ "" → current.sha256 = bundle.sha256 →
      UpdateTestcaseBundle repo bundle = .ok none) ∧
    (repo.latestResult = .ok current → current.sha256 = "" ∨ current.sha256 ≠ bundle.sha256 →
      UpdateTestcaseBundle repo bundle =
        .ok (some { bundle with
          version := if current.version = 0 then 1 else int64wrap (current.version + 1) })) ∧
    (repo.latestResult = .error .notFound → repo.problemResult = .ok problem →
      UpdateTestcaseBundle repo bundle =
        .ok (some { bundle with
          version := if problem.testcaseBundle.version = 0 then 1
                     else int64wrap (problem.testcaseBundle.version + 1) })) ∧
    (∀ tag, repo.latestResult = .error (.failure tag) →
      UpdateTestcaseBundle repo bundle = .error (.failure tag)) ∧
    (∀ fe, repo.latestResult = .error .notFound → repo.problemResult = .error fe →
      UpdateTestcaseBundle repo bundle = .error fe) := by
  refine ⟨?_, ?_, ?_, ?_, ?_⟩
  · intro hl hne heq
    have hne' : bundle.sha256 ≠ "" := heq ▸ hne
    simp [UpdateTestcaseBundle, hl, heq, hne']
  · intro hl hcase
    rcases hcase with hemp | hne
    · simp [UpdateTestcaseBundle, hl, hemp]
    · simp [UpdateTestcaseBundle, hl, hne]
  · intro hl hp
    simp [UpdateTestcaseBundle, hl, hp]
  · intro tag hl
    simp [UpdateTestcaseBundle, hl]
  · intro fe hl hp
    simp [UpdateTestcaseBundle, hl, hp]

/-- C2 witness: a repeated identical upload (equal non-empty digests against
the reported current bundle) is a no-op. -/
theorem C2_update_bundle_state_machine_witness :
    UpdateTestcaseBundle
        { latestResult := .ok { sha256 := "aa", version := 3 }, problemResult := .error .notFound }
        { sha256 := "aa" } = .ok none :=
  (C2_update_bundle_state_machine
      { latestResult := .ok { sha256 := "aa", version := 3 }, problemResult := .error .notFound }
      { sha256 := "aa" } { sha256 := "aa", version := 3 } {}).1 rfl (by decide) rfl

/-- C3 counterexample: a buffer carrying the zip signature `PK\x03\x04` but
named `bundle.tar.gz` reaches the gzip decode and fails with the
`MalformedArchive`-class error "invalid tar.gz bundle", not with the
unsupported-format rejection: format detection is by filename suffix, not by
content signature. -/
theorem C3_counterexample :
    GetTestcaseBundleFromArchive "bundle.tar.gz" [0x50, 0x4b, 0x03, 0x04] [] [] =
      .error .invalidTarGz ∧
    IngestErr.invalidTarGz ≠ IngestErr.unsupportedFormat ∧
    IngestErr.invalidTarGz ≠ IngestErr.zipNotSupported := by
  exact ⟨by decide, by decide, by decide⟩

/-- C3 (amended): an empty byte buffer fails with `EmptyBundle`; format
dispatch is on the trimmed, lowercased *filename* suffix — `.zip` fails with
the zip rejection and any suffix other than `.tar.gz`/`.tgz` with
`UnsupportedFormat`, in both cases before any decode (for every entry
stream); with a `.tar.gz`/`.tgz` name, a buffer that does not carry a gzip
header fails with the malformed-archive error. -/
theorem C3_format_dispatch (filename : String) (data : List Nat) (entries : TarStream)
    (tcGroups : List TestcaseGroup) :
    (data = [] → GetTestcaseBundleFromArchive filename data entries tcGroups =
      .error .emptyBundleData) ∧
    (data ≠ [] → goHasSuffix (goToLower (goTrimSpace filename)) ".zip" = true →
      GetTestcaseBundleFromArchive filename data entries tcGroups = .error .zipNotSupported) ∧
    (data ≠ [] → goHasSuffix (goToLower (goTrimSpace filename)) ".zip" = false →
      goHasSuffix (goToLower (goTrimSpace filename)) ".tar.gz" = false →
      goHasSuffix (goToLower (goTrimSpace filename)) ".tgz" = false →
      GetTestcaseBundleFromArchive filename data entries tcGroups = .error .unsupportedFormat) ∧
    (data ≠ [] → goHasSuffix (goToLower (goTrimSpace filename)) ".zip" = false →
      goHasSuffix (goToLower (goTrimSpace filename)) ".tar.gz" = true ∨
        goHasSuffix (goToLower (goTrimSpace filename)) ".tgz" = true →
      gzipHeaderOk data = false →
      GetTestcaseBundleFromArchive filename data entries tcGroups = .error .invalidTarGz) := by
  refine ⟨?_, ?_, ?_, ?_⟩
  · intro h
    simp [GetTestcaseBundleFromArchive, h]
  · intro hne hzip
    simp [GetTestcaseBundleFromArchive, List.length_eq_zero, hne, hzip]
  · intro hne hzip htargz htgz
    simp [GetTestcaseBundleFromArchive, List.length_eq_zero, hne, hzip, htargz, htgz]
  · intro hne hzip hsuf hgz
    rcases hsuf with h | h <;>
      simp [GetTestcaseBundleFromArchive, List.length_eq_zero, hne, hzip, h, hgz]

/-- C3 witness: a non-empty buffer named with an unsupported suffix is
rejected as unsupported. -/
theorem C3_format_dispatch_witness :
    GetTestcaseBundleFromArchive "b.bin" [1] [] [] = .error .unsupportedFormat :=
  (C3_format_dispatch "b.bin" [1] [] []).2.2.1 (by decide) (by decide) (by decide) (by decide)

/-- C5 counterexample: `9223372036854775808_0.in` (group index `2^63`)
matches the filename grammar but is rejected by the parser: `strconv.Atoi`
fails with a range error for values beyond the 64-bit integer maximum, so not
every magnitude is accepted. -/
theorem C5_counterexample :
    matchTestcaseFilenamePattern "9223372036854775808_0.in" = true ∧
    parseTestcaseFilename "9223372036854775808_0.in" =
      .error (.invalidFilename "9223372036854775808_0.in") := by
  exact ⟨by decide, by decide⟩

/-- C7 counterexample: `0_18446744073709551616.in` passes the filename
validator (it matches the grammar exactly), yet the parse step yields no
triple — it fails with `InvalidFilename` because the testcase index overflows
a 64-bit integer. -/
theorem C7_counterexample :
    validateBundleFilename "0_18446744073709551616.in" = .ok () ∧
    parseTestcaseFilename "0_18446744073709551616.in" =
      .error (.invalidFilename "0_18446744073709551616.in") := by
  exact ⟨by decide, by decide⟩

/-- C9: on every successful ingestion the returned bundle's content hash is
the hex encoding of the SHA-256 digest of the raw input bytes, 64 characters
drawn from the lowercase hexadecimal alphabet.  (The addresser `sha256hex` is
a pure function of the byte buffer, so identical buffers yield identical
hashes by definitional equality.) -/
theorem C9_content_hash (filename : String) (data : List Nat) (entries : TarStream)
    (tcGroups : List TestcaseGroup) (bundle : TestcaseBundle)
    (h : GetTestcaseBundleFromArchive filename data entries tcGroups = .ok bundle) :
    bundle.sha256 = sha256hex data ∧
    (sha256hex data).length = 64 ∧
    (∀ c ∈ (sha256hex data).data, c ∈ lowerHexDigits) := by
  refine ⟨?_, ?_, ?_⟩
  · unfold GetTestcaseBundleFromArchive at h
    split at h
    · exact absurd h (by simp)
    · split at h
      · exact absurd h (by simp)
      · split at h
        · split at h
          · exact absurd h (by simp)
          · split at h
            · exact absurd h (by simp)
            · injection h with h2
              rw [← h2]
        · exact absurd h (by simp)
  · show (String.mk (hexBytes (sha256bytes data))).length = 64
    simp [String.length, hexBytes_length, sha256bytes_length]
  · intro c hc
    exact hexBytes_mem _ c hc

/-- C9 witness: a concrete successful ingestion carrying the SHA-256 hash of
its ten input bytes. -/
theorem C9_content_hash_witness :
    TestcaseBundle.sha256
        { objectKey := "b.tar.gz",
          sha256 := "59a13aa892e3bdd2587c59e6337b5179ac1296970d10728c33fba365826a1864",
          testcaseGroups :=
            [{ orderID := 0, name := "g0", points := 10, testcases := [{ orderID := 0 }] }] } =
      sha256hex [0x1f, 0x8b, 8, 0, 0, 0, 0, 0, 0, 0] ∧
    (sha256hex [0x1f, 0x8b, 8, 0, 0, 0, 0, 0, 0, 0]).length = 64 ∧
    (∀ c ∈ (sha256hex [0x1f, 0x8b, 8, 0, 0, 0, 0, 0, 0, 0]).data, c ∈ lowerHexDigits) :=
  C9_content_hash "b.tar.gz" [0x1f, 0x8b, 8, 0, 0, 0, 0, 0, 0, 0]
    [some { name := "0_0.in" }, some { name := "0_0.out" }]
    [{ orderID := 0, name := "g0", points := 10 }] _ (by decide)

theorem startsWithList_self_append (p r : List Char) : startsWithList p (p ++ r) = true := by
  induction p with
  | nil => rfl
  | cons c cs ih => simp [startsWithList, ih]

/-- Every path the decode loop writes beyond the incoming trace lies under
the scratch directory. -/
theorem tarLoop_written (numGroups : Nat) (tempDir : String) :
    ∀ (es : TarStream) (st : GroupsState) (count : Nat) (written : List String),
      ∀ p ∈ (tarLoop numGroups tempDir es st count written).2,
        p ∈ written ∨ startsWithList (tempDir.data ++ ['/']) p.data = true := by
  intro es
  induction es with
  | nil => intro st count written p hp; exact Or.inl hp
  | cons oe rest ih =>
    intro st count written p hp
    match oe with
    | none => exact Or.inl hp
    | some e =>
      rw [tarLoop] at hp
      split at hp
      · exact ih st count written p hp
      · split at hp
        · exact Or.inl hp
        · split at hp
          · exact Or.inl hp
          · split at hp
            · exact Or.inl hp
            · split at hp
              · exact Or.inl hp
              · split at hp
                · exact Or.inl hp
                · have hj : ∀ q, q ∈ written ++ [joinPath tempDir (pathBase (pathClean e.name))] →
                      q ∈ written ∨ startsWithList (tempDir.data ++ ['/']) q.data = true := by
                    intro q hq
                    rcases List.mem_append.mp hq with h | h
                    · exact Or.inl h
                    · right
                      have hq' : q = joinPath tempDir (pathBase (pathClean e.name)) :=
                        List.mem_singleton.mp h
                      subst hq'
                      show startsWithList (tempDir.data ++ ['/'])
                        (String.mk (tempDir.data ++ '/' :: (pathBase (pathClean e.name)).data)).data = true
                      have : tempDir.data ++ '/' :: (pathBase (pathClean e.name)).data =
                          (tempDir.data ++ ['/']) ++ (pathBase (pathClean e.name)).data := by
                        simp
                      rw [this]
                      exact startsWithList_self_append _ _
                  split at hp
                  · rcases ih _ _ _ p hp with h | h
                    · exact hj p h
                    · exact Or.inr h
                  · exact hj p hp

/-- C8: the scratch extraction area is removed on every exit path — for every
entry stream (including mid-stream decode errors and extraction I/O
failures), every declared groups list and every scratch directory, no
extraction artifact remains after the call, whether it succeeded or failed. -/
theorem C8_scratch_cleanup (tempDir : String) (entries : TarStream)
    (tcGroups : List TestcaseGroup) :
    (readTestcaseFromTarGzCore tempDir entries tcGroups).2 = [] := by
  unfold readTestcaseFromTarGzCore
  rw [List.filter_eq_nil]
  intro p hp
  rcases List.mem_cons.mp hp with h | h
  · subst h
    simp
  · rcases tarLoop_written tcGroups.length tempDir entries _ 0 [] p h with h2 | h2
    · exact absurd h2 (List.not_mem_nil p)
    · simp [h2]

/-! ## Final per-group check lemmas -/

theorem intRange_mem (m : Nat) (t : Int) : t ∈ intRange m ↔ 0 ≤ t ∧ t < (m : Int) := by
  unfold intRange
  simp only [List.mem_map, List.mem_range]
  constructor
  · rintro ⟨i, hi, rfl⟩; omega
  · rintro ⟨h0, hm⟩
    exact ⟨t.toNat, by omega, by omega⟩

theorem intRange_nodup (m : Nat) : (intRange m).Nodup :=
  (List.nodup_range m).map (fun a b h => by exact_mod_cast h)

theorem intRange_sorted (m : Nat) : (intRange m).Sorted (· ≤ ·) := by
  unfold intRange
  rw [List.Sorted, List.pairwise_map]
  exact (List.pairwise_lt_range m).imp (fun h => by exact_mod_cast Nat.le_of_lt h)

theorem consecutiveFrom_shift (m : Nat) :
    ∀ e : Int, consecutiveFrom e ((List.range m).map (fun i : Nat => e + (i : Int))) = true := by
  induction m with
  | zero => intro e; rfl
  | succ n ih =>
    intro e
    rw [List.range_succ_eq_map, List.map_cons, List.map_map]
    have hm : (List.range n).map ((fun i : Nat => e + (i : Int)) ∘ Nat.succ) =
        (List.range n).map (fun i : Nat => (e + 1) + (i : Int)) := by
      apply List.map_congr_left
      intro i _
      simp only [Function.comp]
      push_cast
      ring
    rw [hm]
    simp [consecutiveFrom, ih (e + 1)]

theorem consecutiveFrom_intRange (m : Nat) : consecutiveFrom 0 (intRange m) = true := by
  have h : intRange m = (List.range m).map (fun i : Nat => (0 : Int) + (i : Int)) := by
    apply List.map_congr_left
    intro i _
    omega
  rw [h]
  exact consecutiveFrom_shift m 0

theorem consecutiveFrom_mem :
    ∀ (l : List Int) (e : Int), consecutiveFrom e l = true →
      ∀ t : Int, t ∈ l ↔ e ≤ t ∧ t < e + l.length := by
  intro l
  induction l with
  | nil => intro e _ t; simp
  | cons o rest ih =>
    intro e h t
    rw [consecutiveFrom, Bool.and_eq_true, decide_eq_true_eq] at h
    obtain ⟨rfl, hrest⟩ := h
    have := ih (o + 1) hrest t
    simp only [List.mem_cons, this, List.length_cons]
    push_cast
    omega

theorem sorted_nodup_range_eq (l : List Int) (m : Nat)
    (hs : l.Sorted (· ≤ ·)) (hnd : l.Nodup)
    (hmem : ∀ t : Int, t ∈ l ↔ 0 ≤ t ∧ t < (m : Int)) :
    l = intRange m := by
  apply List.eq_of_perm_of_sorted _ hs (intRange_sorted m)
  rw [List.perm_ext_iff_of_nodup hnd (intRange_nodup m)]
  intro t
  rw [hmem t, intRange_mem]

theorem collectOrders_complete (g : Int) :
    ∀ orders : List (Int × FlagPair),
      (∀ t p, (t, p) ∈ orders → p.inFlag = true ∧ p.outFlag = true) →
      collectOrders g orders = .ok (orders.map Prod.fst) := by
  intro orders
  induction orders with
  | nil => intro _; rfl
  | cons hd rest ih =>
    intro h
    obtain ⟨t, p⟩ := hd
    obtain ⟨hin, hout⟩ := h t p (by simp)
    rw [collectOrders, hin, hout]
    simp only [Bool.not_true, Bool.or_self, if_neg (by simp : ¬ (false = true))]
    rw [ih (fun t' p' hm => h t' p' (List.mem_cons_of_mem _ hm))]
    rfl

theorem collectOrders_incomplete (g : Int) :
    ∀ (orders : List (Int × FlagPair)) (t : Int) (p : FlagPair),
      (t, p) ∈ orders → p.inFlag = false ∨ p.outFlag = false →
      ∃ t2 p2, (t2, p2) ∈ orders ∧ (p2.inFlag = false ∨ p2.outFlag = false) ∧
        collectOrders g orders = .error (.incompletePair g t2) := by
  intro orders
  induction orders with
  | nil => intro t p h; cases h
  | cons hd rest ih =>
    intro t p hmem hflag
    obtain ⟨t0, p0⟩ := hd
    by_cases hbad : (!p0.inFlag || !p0.outFlag) = true
    · refine ⟨t0, p0, by simp, ?_, ?_⟩
      · rcases Bool.or_eq_true_iff.mp hbad with h | h
        · exact Or.inl (by revert h; cases p0.inFlag <;> simp)
        · exact Or.inr (by revert h; cases p0.outFlag <;> simp)
      · rw [collectOrders, if_pos hbad]
    · rcases List.mem_cons.mp hmem with heq | hmem'
      · exfalso
        apply hbad
        obtain ⟨h1, h2⟩ := Prod.mk.injEq .. ▸ heq
        rcases hflag with h | h
        · subst h2; simp [h]
        · subst h2; simp [h]
      · obtain ⟨t2, p2, hm2, hf2, hcol⟩ := ih t p hmem' hflag
        refine ⟨t2, p2, List.mem_cons_of_mem _ hm2, hf2, ?_⟩
        rw [collectOrders, if_neg hbad, hcol]
        rfl

theorem checkGroupOrders_ok (g : Int) (orders : List (Int × FlagPair)) (m : Nat)
    (hnd : (orders.map Prod.fst).Nodup)
    (hmem : ∀ t : Int, t ∈ orders.map Prod.fst ↔ 0 ≤ t ∧ t < (m : Int))
    (hcomp : ∀ t p, (t, p) ∈ orders → p.inFlag = true ∧ p.outFlag = true) :
    checkGroupOrders g orders = .ok (intRange m) := by
  have hperm := List.perm_insertionSort (· ≤ ·) (orders.map Prod.fst)
  have hsorted := List.sorted_insertionSort (· ≤ ·) (orders.map Prod.fst)
  have heq : List.insertionSort (· ≤ ·) (orders.map Prod.fst) = intRange m := by
    apply sorted_nodup_range_eq _ _ hsorted (hperm.nodup_iff.mpr hnd)
    intro t
    rw [hperm.mem_iff]
    exact hmem t
  unfold checkGroupOrders
  rw [collectOrders_complete g orders hcomp]
  simp only [Except.bind]
  rw [heq, consecutiveFrom_intRange m]
  simp

/-- C4: after the entry loop, the per-group checks behave as follows — a
group containing a referenced order with a missing input or output flag fails
with `IncompleteTestcasePair` naming the group and such an order; a fully
paired group whose referenced orders are not exactly `0..n-1` fails with
`NonContiguousOrdering` naming the group; groups with zero referenced orders
are skipped — they cause no error and their testcase lists are left
untouched. -/
theorem C4_post_loop_group_checks :
    (∀ (g t : Int) (p : FlagPair) (orders : List (Int × FlagPair)),
      (t, p) ∈ orders → p.inFlag = false ∨ p.outFlag = false →
      ∃ t2 p2, (t2, p2) ∈ orders ∧ (p2.inFlag = false ∨ p2.outFlag = false) ∧
        checkGroupOrders g orders = .error (.incompletePair g t2)) ∧
    (∀ (g : Int) (orders : List (Int × FlagPair)),
      (∀ t p, (t, p) ∈ orders → p.inFlag = true ∧ p.outFlag = true) →
      ¬ (∀ t : Int, t ∈ orders.map Prod.fst ↔ 0 ≤ t ∧ t < (orders.length : Int)) →
      checkGroupOrders g orders = .error (.notConsecutive g)) ∧
    (∀ (g : Int) (sts : List (List (Int × FlagPair))) (groups out : List TestcaseGroup),
      finalizeGroups g sts groups = .ok out →
      ∀ i : Nat, sts.getD i [] = [] →
        out.getD i {} = groups.getD i {}) ∧
    (∀ (g : Int) (sts : List (List (Int × FlagPair))) (groups : List TestcaseGroup),
      (∀ o ∈ sts, o = []) → finalizeGroups g sts groups = .ok groups) := by
  refine ⟨?_, ?_, ?_, ?_⟩
  · intro g t p orders hmem hflag
    obtain ⟨t2, p2, hm2, hf2, hcol⟩ := collectOrders_incomplete g orders t p hmem hflag
    refine ⟨t2, p2, hm2, hf2, ?_⟩
    unfold checkGroupOrders
    rw [hcol]
    rfl
  · intro g orders hcomp hnot
    unfold checkGroupOrders
    rw [collectOrders_complete g orders hcomp]
    simp only [Except.bind]
    by_cases hc : consecutiveFrom 0 (List.insertionSort (· ≤ ·) (orders.map Prod.fst)) = true
    · exfalso
      apply hnot
      intro t
      have hperm := List.perm_insertionSort (· ≤ ·) (orders.map Prod.fst)
      have hm := consecutiveFrom_mem _ 0 hc t
      rw [hperm.mem_iff] at hm
      rw [hm, hperm.length_eq, List.length_map]
      omega
    · rw [if_neg hc]
  · intro g sts
    induction sts generalizing g with
    | nil =>
      intro groups out h i _
      rw [finalizeGroups] at h
      injection h with h
      rw [h]
    | cons orders restO ih =>
      intro groups out h i hi
      match groups with
      | [] =>
        rw [finalizeGroups] at h
        injection h with h
        rw [← h]
      | grp :: restG =>
        rw [finalizeGroups] at h
        by_cases hlen : orders.length = 0
        · rw [if_pos hlen] at h
          cases hrec : finalizeGroups (g + 1) restO restG with
          | error e => rw [hrec] at h; exact absurd h (by simp [Except.map])
          | ok out' =>
            rw [hrec] at h
            simp only [Except.map] at h
            injection h with h
            subst h
            match i with
            | 0 => rfl
            | i + 1 => exact ih (g + 1) restG out' hrec i hi
        · rw [if_neg hlen] at h
          cases hchk : checkGroupOrders g orders with
          | error e => rw [hchk] at h; exact absurd h (by simp)
          | ok sorted =>
            rw [hchk] at h
            cases hrec : finalizeGroups (g + 1) restO restG with
            | error e => rw [hrec] at h; exact absurd h (by simp [Except.map])
            | ok out' =>
              rw [hrec] at h
              simp only [Except.map] at h
              injection h with h
              subst h
              match i with
              | 0 => exact absurd (by simpa using hi) hlen
              | i + 1 => exact ih (g + 1) restG out' hrec i hi
  · intro g sts
    induction sts generalizing g with
    | nil => intro groups _; rfl
    | cons orders restO ih =>
      intro groups hall
      match groups with
      | [] => rw [finalizeGroups]
      | grp :: restG =>
        have ho : orders = [] := hall orders (by simp)
        rw [finalizeGroups, if_pos (by rw [ho]; rfl),
            ih (g + 1) restG (fun o hm => hall o (List.mem_cons_of_mem _ hm))]
        rfl

/-- C4 witness: a fully paired group referencing orders `{0, 2}` is rejected
as non-contiguous, and an all-empty state leaves the declared groups
untouched. -/
theorem C4_post_loop_group_checks_witness :
    checkGroupOrders 1 [(0, ⟨true, true⟩), (2, ⟨true, true⟩)] =
      .error (.notConsecutive 1) ∧
    finalizeGroups 0 [[], []] [{ name := "g0" }, { name := "g1" }] =
      .ok [{ name := "g0" }, { name := "g1" }] :=
  ⟨C4_post_loop_group_checks.2.1 1 [(0, ⟨true, true⟩), (2, ⟨true, true⟩)]
      (by
        intro t p hm
        simp only [List.mem_cons, List.not_mem_nil, or_false, Prod.mk.injEq] at hm
        rcases hm with ⟨rfl, rfl⟩ | ⟨rfl, rfl⟩ <;> exact ⟨rfl, rfl⟩)
      (fun hall => absurd ((hall 1).mpr (by norm_num)) (by decide)),
    C4_post_loop_group_checks.2.2.2 0 [[], []] [{ name := "g0" }, { name := "g1" }]
      (by intro o ho; simp at ho; exact ho)⟩

/-! ## State-update lemmas for the decode loop -/

theorem getD_set_self {α : Type} : ∀ (l : List α) (i : Nat) (a d : α), i < l.length →
    (l.set i a).getD i d = a := by
  intro l
  induction l with
  | nil => intro i a d h; cases h
  | cons x xs ih =>
    intro i a d h
    match i with
    | 0 => rfl
    | j + 1 => exact ih j a d (by simpa using h)

theorem getD_set_ne {α : Type} : ∀ (l : List α) (i j : Nat) (a d : α), i ≠ j →
    (l.set i a).getD j d = l.getD j d := by
  intro l
  induction l with
  | nil => intro i j a d _; rfl
  | cons x xs ih =>
    intro i j a d h
    match i, j with
    | 0, 0 => exact absurd rfl h
    | 0, _ + 1 => rfl
    | _ + 1, 0 => rfl
    | i + 1, j + 1 => exact ih i j a d (by omega)

theorem getD_replicate_nil : ∀ (n i : Nat),
    (List.replicate n ([] : List (Int × FlagPair))).getD i [] = [] := by
  intro n
  induction n with
  | zero => intro i; rfl
  | succ m ih =>
    intro i
    match i with
    | 0 => rfl
    | j + 1 => exact ih j

theorem lookupOrd_setOrd : ∀ (m : List (Int × FlagPair)) (t t' : Int) (p : FlagPair),
    lookupOrd (setOrd m t p) t' = if t = t' then some p else lookupOrd m t' := by
  intro m t t' p
  induction m with
  | nil => simp [setOrd, lookupOrd]
  | cons hd rest ih =>
    obtain ⟨k, q⟩ := hd
    rw [setOrd]
    by_cases hk : k = t
    · subst hk
      rw [if_pos rfl, lookupOrd, lookupOrd]
      by_cases h2 : k = t'
      · subst h2; simp
      · simp [h2]
    · rw [if_neg hk, lookupOrd, lookupOrd]
      by_cases h2 : k = t'
      · subst h2
        have hne : ¬ t = k := fun h => hk h.symm
        simp [hne]
      · simp [h2, ih]

theorem setOrd_keys_mem : ∀ (m : List (Int × FlagPair)) (t t' : Int) (p : FlagPair),
    t' ∈ (setOrd m t p).map Prod.fst ↔ t' ∈ m.map Prod.fst ∨ t' = t := by
  intro m t t' p
  induction m with
  | nil => simp [setOrd]
  | cons hd rest ih =>
    obtain ⟨k, q⟩ := hd
    rw [setOrd]
    by_cases hk : k = t
    · rw [if_pos hk]
      subst hk
      simp only [List.map_cons, List.mem_cons]
      tauto
    · rw [if_neg hk]
      simp only [List.map_cons, List.mem_cons, ih]
      tauto

theorem setOrd_keys_nodup : ∀ (m : List (Int × FlagPair)) (t : Int) (p : FlagPair),
    (m.map Prod.fst).Nodup → ((setOrd m t p).map Prod.fst).Nodup := by
  intro m t p
  induction m with
  | nil => intro _; simp [setOrd]
  | cons hd rest ih =>
    obtain ⟨k, q⟩ := hd
    intro hnd
    rw [List.map_cons, List.nodup_cons] at hnd
    rw [setOrd]
    by_cases hk : k = t
    · subst hk
      simpa using hnd
    · rw [if_neg hk, List.map_cons, List.nodup_cons]
      refine ⟨?_, ih hnd.2⟩
      rw [setOrd_keys_mem]
      rintro (h | h)
      · exact hnd.1 h
      · exact hk h

theorem flagInAt_congr (st : GroupsState) (g g' t : Int) (h : g.toNat = g'.toNat) :
    flagInAt st g t = flagInAt st g' t := by
  unfold flagInAt
  rw [h]

theorem flagOutAt_congr (st : GroupsState) (g g' t : Int) (h : g.toNat = g'.toNat) :
    flagOutAt st g t = flagOutAt st g' t := by
  unfold flagOutAt
  rw [h]

theorem keysAt_congr (st : GroupsState) (g g' : Int) (h : g.toNat = g'.toNat) :
    keysAt st g = keysAt st g' := by
  unfold keysAt
  rw [h]

/-- Effect of a successful `in`-flag update on the observable state views. -/
theorem applyEntryFlag_in (st : GroupsState) (g t : Int) (base : String)
    (hfresh : flagInAt st g t = false) (hlt : g.toNat < st.length) :
    ∃ st', applyEntryFlag st g t "in" base = .ok st' ∧
      st'.length = st.length ∧
      (∀ t' : Int, flagInAt st' g t' = if t = t' then true else flagInAt st g t') ∧
      (∀ g' t' : Int, g'.toNat ≠ g.toNat → flagInAt st' g' t' = flagInAt st g' t') ∧
      (∀ g' t' : Int, flagOutAt st' g' t' = flagOutAt st g' t') ∧
      (∀ t' : Int, t' ∈ keysAt st' g ↔ t' ∈ keysAt st g ∨ t' = t) ∧
      (∀ g' : Int, g'.toNat ≠ g.toNat → keysAt st' g' = keysAt st g') ∧
      (∀ g' : Int, (keysAt st g').Nodup → (keysAt st' g').Nodup) := by
  have hflag : ((lookupOrd (st.getD g.toNat []) t).getD {}).inFlag = false := hfresh
  refine ⟨st.set g.toNat
      (setOrd (st.getD g.toNat []) t
        { (lookupOrd (st.getD g.toNat []) t).getD {} with inFlag := true }), ?_, ?_, ?_, ?_, ?_, ?_, ?_, ?_⟩
  · unfold applyEntryFlag
    rw [if_pos rfl, if_neg (by rw [hflag]; exact Bool.false_ne_true)]
  · exact List.length_set st _ _
  · intro t'
    unfold flagInAt
    rw [getD_set_self st _ _ _ hlt, lookupOrd_setOrd]
    by_cases ht : t = t'
    · rw [if_pos ht, if_pos ht]
      rfl
    · rw [if_neg ht, if_neg ht]
  · intro g' t' hne
    unfold flagInAt
    rw [getD_set_ne st _ _ _ _ (fun h => hne h.symm)]
  · intro g' t'
    unfold flagOutAt
    by_cases hne : g'.toNat = g.toNat
    · rw [hne, getD_set_self st _ _ _ hlt, lookupOrd_setOrd]
      by_cases ht : t = t'
      · rw [if_pos ht]
        subst ht
        rfl
      · rw [if_neg ht]
    · rw [getD_set_ne st _ _ _ _ (fun h => hne h.symm)]
  · intro t'
    unfold keysAt
    rw [getD_set_self st _ _ _ hlt, setOrd_keys_mem]
  · intro g' hne
    unfold keysAt
    rw [getD_set_ne st _ _ _ _ (fun h => hne h.symm)]
  · intro g' hnd
    unfold keysAt
    by_cases hne : g'.toNat = g.toNat
    · rw [hne, getD_set_self st _ _ _ hlt]
      apply setOrd_keys_nodup
      unfold keysAt at hnd
      rw [hne] at hnd
      exact hnd
    · rw [getD_set_ne st _ _ _ _ (fun h => hne h.symm)]
      exact hnd

/-- Effect of a successful `out`-flag update on the observable state views. -/
theorem applyEntryFlag_out (st : GroupsState) (g t : Int) (base : String)
    (hfresh : flagOutAt st g t = false) (hlt : g.toNat < st.length) :
    ∃ st', applyEntryFlag st g t "out" base = .ok st' ∧
      st'.length = st.length ∧
      (∀ t' : Int, flagOutAt st' g t' = if t = t' then true else flagOutAt st g t') ∧
      (∀ g' t' : Int, g'.toNat ≠ g.toNat → flagOutAt st' g' t' = flagOutAt st g' t') ∧
      (∀ g' t' : Int, flagInAt st' g' t' = flagInAt st g' t') ∧
      (∀ t' : Int, t' ∈ keysAt st' g ↔ t' ∈ keysAt st g ∨ t' = t) ∧
      (∀ g' : Int, g'.toNat ≠ g.toNat → keysAt st' g' = keysAt st g') ∧
      (∀ g' : Int, (keysAt st g').Nodup → (keysAt st' g').Nodup) := by
  have hflag : ((lookupOrd (st.getD g.toNat []) t).getD {}).outFlag = false := hfresh
  refine ⟨st.set g.toNat
      (setOrd (st.getD g.toNat []) t
        { (lookupOrd (st.getD g.toNat []) t).getD {} with outFlag := true }), ?_, ?_, ?_, ?_, ?_, ?_, ?_, ?_⟩
  · unfold applyEntryFlag
    rw [if_neg (by decide : ¬ ("out" = "in")), if_pos rfl,
        if_neg (by rw [hflag]; exact Bool.false_ne_true)]
  · exact List.length_set st _ _
  · intro t'
    unfold flagOutAt
    rw [getD_set_self st _ _ _ hlt, lookupOrd_setOrd]
    by_cases ht : t = t'
    · rw [if_pos ht, if_pos ht]
      rfl
    · rw [if_neg ht, if_neg ht]
  · intro g' t' hne
    unfold flagOutAt
    rw [getD_set_ne st _ _ _ _ (fun h => hne h.symm)]
  · intro g' t'
    unfold flagInAt
    by_cases hne : g'.toNat = g.toNat
    · rw [hne, getD_set_self st _ _ _ hlt, lookupOrd_setOrd]
      by_cases ht : t = t'
      · rw [if_pos ht]
        subst ht
        rfl
      · rw [if_neg ht]
    · rw [getD_set_ne st _ _ _ _ (fun h => hne h.symm)]
  · intro t'
    unfold keysAt
    rw [getD_set_self st _ _ _ hlt, setOrd_keys_mem]
  · intro g' hne
    unfold keysAt
    rw [getD_set_ne st _ _ _ _ (fun h => hne h.symm)]
  · intro g' hnd
    unfold keysAt
    by_cases hne : g'.toNat = g.toNat
    · rw [hne, getD_set_self st _ _ _ hlt]
      apply setOrd_keys_nodup
      unfold keysAt at hnd
      rw [hne] at hnd
      exact hnd
    · rw [getD_set_ne st _ _ _ _ (fun h => hne h.symm)]
      exact hnd

/-- Characterization of the entry loop on an accepted stream: processing a
stream of valid entries whose triples are distinct and fresh for the incoming
state succeeds, counts the non-directory entries, and records exactly the
flags and referenced orders given by triple membership. -/
theorem tarLoop_ok_characterization (numGroups : Nat) (tempDir : String) :
    ∀ (es : TarStream) (st : GroupsState) (count : Nat) (written : List String),
      st.length = numGroups →
      (∀ oe ∈ es, validEntry oe = true) →
      (∀ tr ∈ triplesOf es, tripleInBounds numGroups tr = true) →
      (triplesOf es).Nodup →
      (∀ tr ∈ triplesOf es,
        (tr.2.2 = "in" → flagInAt st tr.1 tr.2.1 = false) ∧
        (tr.2.2 = "out" → flagOutAt st tr.1 tr.2.1 = false)) →
      ∃ st',
        (tarLoop numGroups tempDir es st count written).1 =
          .ok (st', count + (triplesOf es).length) ∧
        st'.length = numGroups ∧
        (∀ g t : Int, 0 ≤ g →
          flagInAt st' g t = (flagInAt st g t || decide ((g, t, "in") ∈ triplesOf es))) ∧
        (∀ g t : Int, 0 ≤ g →
          flagOutAt st' g t = (flagOutAt st g t || decide ((g, t, "out") ∈ triplesOf es))) ∧
        (∀ g t : Int, 0 ≤ g →
          (t ∈ keysAt st' g ↔ t ∈ keysAt st g ∨ (g, t, "in") ∈ triplesOf es ∨
            (g, t, "out") ∈ triplesOf es)) ∧
        (∀ g : Int, (keysAt st g).Nodup → (keysAt st' g).Nodup) := by
  intro es
  induction es with
  | nil =>
    intro st count written hlen _ _ _ _
    refine ⟨st, ?_, hlen, ?_, ?_, ?_, ?_⟩
    · simp [tarLoop, triplesOf]
    · intro g t _; simp [triplesOf]
    · intro g t _; simp [triplesOf]
    · intro g t _; simp [triplesOf]
    · intro g h; exact h
  | cons oe rest ih =>
    intro st count written hlen hvalid hbounds hnodup hfresh
    have hv0 : validEntry oe = true := hvalid oe (by simp)
    match oe with
    | none => exact absurd hv0 (by simp [validEntry])
    | some e =>
      by_cases hdir : e.isDir = true
      · have htr : entryTriple (some e) = none := by simp [entryTriple, hdir]
        have htri : triplesOf (some e :: rest) = triplesOf rest := by
          simp [triplesOf, List.filterMap_cons, htr]
        rw [tarLoop, if_pos hdir, htri]
        rw [htri] at hbounds hnodup hfresh
        exact ih st count written hlen
          (fun oe' h => hvalid oe' (List.mem_cons_of_mem _ h)) hbounds hnodup hfresh
      · rw [validEntry, Bool.or_eq_true] at hv0
        rcases hv0 with h | hv0
        · exact absurd h hdir
        rw [Bool.and_eq_true, Bool.and_eq_true, Bool.and_eq_true] at hv0
        obtain ⟨⟨⟨hreg, hxok⟩, hvb⟩, hpb⟩ := hv0
        rcases hval : validateBundleFilename e.name with verr | vu
        · rw [hval] at hvb; simp at hvb
        rcases hparse : parseTestcaseFilename (pathBase (pathClean e.name)) with perr | tr0
        · rw [hparse] at hpb; simp at hpb
        obtain ⟨g, t, ext⟩ := tr0
        have htr : entryTriple (some e) = some (g, t, ext) := by
          simp [entryTriple, hdir, hparse, Except.toOption]
        have htri : triplesOf (some e :: rest) = (g, t, ext) :: triplesOf rest := by
          simp [triplesOf, List.filterMap_cons, htr]
        have hb0 := hbounds (g, t, ext) (by rw [htri]; exact List.mem_cons_self _ _)
        rw [tripleInBounds, Bool.and_eq_true, Bool.and_eq_true] at hb0
        obtain ⟨⟨hg0', hgn'⟩, hkind'⟩ := hb0
        have hg0 : (0 : Int) ≤ g := by simpa using hg0'
        have hgn : g < (numGroups : Int) := by simpa using hgn'
        have hkind : ext = "in" ∨ ext = "out" := by
          rcases Bool.or_eq_true_iff.mp hkind' with h | h
          · exact Or.inl (by simpa using h)
          · exact Or.inr (by simpa using h)
        have hheadmem : (g, t, ext) ∈ triplesOf (some e :: rest) := by
          rw [htri]; exact List.mem_cons_self _ _
        have hheadnot : (g, t, ext) ∉ triplesOf rest := by
          rw [htri] at hnodup
          exact (List.nodup_cons.mp hnodup).1
        have hnodup' : (triplesOf rest).Nodup := by
          rw [htri] at hnodup
          exact (List.nodup_cons.mp hnodup).2
        have hvalid' : ∀ oe' ∈ rest, validEntry oe' = true :=
          fun oe' h => hvalid oe' (List.mem_cons_of_mem _ h)
        have hbounds' : ∀ tr ∈ triplesOf rest, tripleInBounds numGroups tr = true :=
          fun tr h => hbounds tr (by rw [htri]; exact List.mem_cons_of_mem _ h)
        have hlt : g.toNat < st.length := by omega
        rw [tarLoop]
        simp only [if_neg hdir, if_neg (not_not_intro hreg), hval, hparse]
        have hcond : ¬ ((decide (g < 0) || decide ((numGroups : Int) ≤ g)) = true) := by
          simp only [Bool.or_eq_true, decide_eq_true_eq]
          omega
        rw [if_neg hcond]
        rcases hkind with hkd | hkd
        · -- kind "in"
          subst hkd
          have hfresh0 : flagInAt st g t = false := (hfresh _ hheadmem).1 rfl
          obtain ⟨st1, happ, hlen1, hin_same, hin_other, hout_all, hkey_same,
            hkey_other, hnd1⟩ := applyEntryFlag_in st g t (pathBase (pathClean e.name)) hfresh0 hlt
          simp only [happ]
          rw [if_pos hxok]
          have hfresh' : ∀ tr ∈ triplesOf rest,
              (tr.2.2 = "in" → flagInAt st1 tr.1 tr.2.1 = false) ∧
              (tr.2.2 = "out" → flagOutAt st1 tr.1 tr.2.1 = false) := by
            intro tr htrm
            have hb := hbounds' tr htrm
            rw [tripleInBounds, Bool.and_eq_true, Bool.and_eq_true] at hb
            have htr0 : (0 : Int) ≤ tr.1 := by simpa using hb.1.1
            constructor
            · intro hk
              by_cases hgg : tr.1 = g
              · by_cases htt : tr.2.1 = t
                · exfalso
                  apply hheadnot
                  have : tr = (g, t, "in") := by
                    obtain ⟨a, b, c⟩ := tr
                    simp only at hgg htt hk
                    rw [hgg, htt, hk]
                  rw [← this]
                  exact htrm
                · have h1 : flagInAt st1 tr.1 tr.2.1 = flagInAt st1 g tr.2.1 :=
                    flagInAt_congr _ _ _ _ (by rw [hgg])
                  rw [h1, hin_same, if_neg (fun h => htt h.symm)]
                  have h2 : flagInAt st g tr.2.1 = flagInAt st tr.1 tr.2.1 :=
                    flagInAt_congr _ _ _ _ (by rw [hgg])
                  rw [h2]
                  exact (hfresh tr (by rw [htri]; exact List.mem_cons_of_mem _ htrm)).1 hk
              · rw [hin_other _ _ (by omega)]
                exact (hfresh tr (by rw [htri]; exact List.mem_cons_of_mem _ htrm)).1 hk
            · intro hk
              rw [hout_all]
              exact (hfresh tr (by rw [htri]; exact List.mem_cons_of_mem _ htrm)).2 hk
          obtain ⟨st', hres, hlen', hin', hout', hkey', hnd'⟩ :=
            ih st1 (count + 1) (written ++ [joinPath tempDir (pathBase (pathClean e.name))])
              (hlen1.trans hlen) hvalid' hbounds' hnodup' hfresh'
          refine ⟨st', ?_, hlen', ?_, ?_, ?_, ?_⟩
          · rw [htri, List.length_cons, hres,
              show count + 1 + (triplesOf rest).length =
                count + ((triplesOf rest).length + 1) from by omega]
          · intro g' t' hg'
            rw [htri, hin' g' t' hg']
            by_cases hgg : g' = g
            · subst hgg
              by_cases htt : t' = t
              · subst htt
                rw [hin_same, if_pos rfl]
                simp
              · rw [hin_same, if_neg (fun h => htt h.symm)]
                have hne : ¬ ((g', t', "in") = (g', t, "in")) := by
                  simp only [Prod.mk.injEq]
                  tauto
                simp [List.mem_cons, hne]
            · rw [hin_other _ _ (by omega)]
              have hne : ¬ ((g', t', "in") = (g, t, "in")) := by
                simp only [Prod.mk.injEq]
                tauto
              simp [List.mem_cons, hne]
          · intro g' t' hg'
            rw [htri, hout' g' t' hg', hout_all]
            have hne : ¬ ((g', t', "out") = (g, t, "in")) := by
              simp only [Prod.mk.injEq]
              tauto
            simp [List.mem_cons, hne]
          · intro g' t' hg'
            rw [htri, hkey' g' t' hg']
            simp only [List.mem_cons]
            by_cases hgg : g' = g
            · subst hgg
              by_cases htt : t' = t
              · subst htt
                rw [hkey_same]
                simp only [Prod.mk.injEq]
                tauto
              · rw [hkey_same]
                simp only [Prod.mk.injEq]
                tauto
            · rw [hkey_other _ (by omega)]
              simp only [Prod.mk.injEq]
              tauto
          · intro g' hnd0
            exact hnd' g' (hnd1 g' hnd0)
        · -- kind "out"
          subst hkd
          have hfresh0 : flagOutAt st g t = false := (hfresh _ hheadmem).2 rfl
          obtain ⟨st1, happ, hlen1, hout_same, hout_other, hin_all, hkey_same,
            hkey_other, hnd1⟩ := applyEntryFlag_out st g t (pathBase (pathClean e.name)) hfresh0 hlt
          simp only [happ]
          rw [if_pos hxok]
          have hfresh' : ∀ tr ∈ triplesOf rest,
              (tr.2.2 = "in" → flagInAt st1 tr.1 tr.2.1 = false) ∧
              (tr.2.2 = "out" → flagOutAt st1 tr.1 tr.2.1 = false) := by
            intro tr htrm
            have hb := hbounds' tr htrm
            rw [tripleInBounds, Bool.and_eq_true, Bool.and_eq_true] at hb
            have htr0 : (0 : Int) ≤ tr.1 := by simpa using hb.1.1
            constructor
            · intro hk
              rw [hin_all]
              exact (hfresh tr (by rw [htri]; exact List.mem_cons_of_mem _ htrm)).1 hk
            · intro hk
              by_cases hgg : tr.1 = g
              · by_cases htt : tr.2.1 = t
                · exfalso
                  apply hheadnot
                  have : tr = (g, t, "out") := by
                    obtain ⟨a, b, c⟩ := tr
                    simp only at hgg htt hk
                    rw [hgg, htt, hk]
                  rw [← this]
                  exact htrm
                · have h1 : flagOutAt st1 tr.1 tr.2.1 = flagOutAt st1 g tr.2.1 :=
                    flagOutAt_congr _ _ _ _ (by rw [hgg])
                  rw [h1, hout_same, if_neg (fun h => htt h.symm)]
                  have h2 : flagOutAt st g tr.2.1 = flagOutAt st tr.1 tr.2.1 :=
                    flagOutAt_congr _ _ _ _ (by rw [hgg])
                  rw [h2]
                  exact (hfresh tr (by rw [htri]; exact List.mem_cons_of_mem _ htrm)).2 hk
              · rw [hout_other _ _ (by omega)]
                exact (hfresh tr (by rw [htri]; exact List.mem_cons_of_mem _ htrm)).2 hk
          obtain ⟨st', hres, hlen', hin', hout', hkey', hnd'⟩ :=
            ih st1 (count + 1) (written ++ [joinPath tempDir (pathBase (pathClean e.name))])
              (hlen1.trans hlen) hvalid' hbounds' hnodup' hfresh'
          refine ⟨st', ?_, hlen', ?_, ?_, ?_, ?_⟩
          · rw [htri, List.length_cons, hres,
              show count + 1 + (triplesOf rest).length =
                count + ((triplesOf rest).length + 1) from by omega]
          · intro g' t' hg'
            rw [htri, hin' g' t' hg', hin_all]
            have hne : ¬ ((g', t', "in") = (g, t, "out")) := by
              simp only [Prod.mk.injEq]
              tauto
            simp [List.mem_cons, hne]
          · intro g' t' hg'
            rw [htri, hout' g' t' hg']
            by_cases hgg : g' = g
            · subst hgg
              by_cases htt : t' = t
              · subst htt
                rw [hout_same, if_pos rfl]
                simp
              · rw [hout_same, if_neg (fun h => htt h.symm)]
                have hne : ¬ ((g', t', "out") = (g', t, "out")) := by
                  simp only [Prod.mk.injEq]
                  tauto
                simp [List.mem_cons, hne]
            · rw [hout_other _ _ (by omega)]
              have hne : ¬ ((g', t', "out") = (g, t, "out")) := by
                simp only [Prod.mk.injEq]
                tauto
              simp [List.mem_cons, hne]
          · intro g' t' hg'
            rw [htri, hkey' g' t' hg']
            simp only [List.mem_cons]
            by_cases hgg : g' = g
            · subst hgg
              by_cases htt : t' = t
              · subst htt
                rw [hkey_same]
                simp only [Prod.mk.injEq]
                tauto
              · rw [hkey_same]
                simp only [Prod.mk.injEq]
                tauto
            · rw [hkey_other _ (by omega)]
              simp only [Prod.mk.injEq]
              tauto
          · intro g' hnd0
            exact hnd' g' (hnd1 g' hnd0)

/-! ## Valid-archive master lemma -/

theorem appendParsed_nil (grp : TestcaseGroup) : appendParsed grp [] = grp := by
  cases grp
  simp [appendParsed]

theorem intRange_zero : intRange 0 = [] := rfl

theorem lookupOrd_of_mem_nodup :
    ∀ (m : List (Int × FlagPair)) (t : Int) (p : FlagPair),
      (m.map Prod.fst).Nodup → (t, p) ∈ m → lookupOrd m t = some p := by
  intro m
  induction m with
  | nil => intro t p _ h; cases h
  | cons hd rest ih =>
    intro t p hnd hmem
    obtain ⟨k, q⟩ := hd
    rw [List.map_cons, List.nodup_cons] at hnd
    rcases List.mem_cons.mp hmem with heq | hmem'
    · obtain ⟨h1, h2⟩ := Prod.mk.injEq .. ▸ heq
      subst h1; subst h2
      rw [lookupOrd, if_pos rfl]
    · rw [lookupOrd]
      have hkt : ¬ k = t := by
        intro h
        subst h
        exact hnd.1 (List.mem_map.mpr ⟨(k, p), hmem', rfl⟩)
      rw [if_neg hkt]
      exact ih t p hnd.2 hmem'

theorem finalizeGroups_expected (k : Nat → Nat) :
    ∀ (sts : List (List (Int × FlagPair))) (groups : List TestcaseGroup) (gIdx : Nat),
      sts.length = groups.length →
      (∀ j : Nat, j < sts.length →
        ((sts.getD j []).map Prod.fst).Nodup ∧
        (∀ t : Int, t ∈ (sts.getD j []).map Prod.fst ↔ 0 ≤ t ∧ t < (k (gIdx + j) : Int)) ∧
        (∀ t p, (t, p) ∈ sts.getD j [] → p.inFlag = true ∧ p.outFlag = true)) →
      finalizeGroups (gIdx : Int) sts groups = .ok (expectedGroups k gIdx groups) := by
  intro sts
  induction sts with
  | nil =>
    intro groups gIdx hlen _
    have hg : groups = [] := by
      cases groups with
      | nil => rfl
      | cons a b => simp at hlen
    subst hg
    rfl
  | cons orders restO ih =>
    intro groups gIdx hlen hprop
    match groups with
    | [] => simp at hlen
    | grp :: restG =>
      obtain ⟨hnd0, hmem0, hcomp0⟩ := hprop 0 (by simp)
      have hcast : ((gIdx : Int) + 1) = ((gIdx + 1 : Nat) : Int) := by push_cast; ring
      have hrec : finalizeGroups ((gIdx + 1 : Nat) : Int) restO restG =
          .ok (expectedGroups k (gIdx + 1) restG) := by
        apply ih restG (gIdx + 1) (by simpa using hlen)
        intro j hj
        have hp := hprop (j + 1) (by simpa using hj)
        have hidx : gIdx + (j + 1) = (gIdx + 1) + j := by omega
        rw [hidx] at hp
        exact hp
      by_cases hk : k gIdx = 0
      · have hordnil : orders = [] := by
          cases horders : orders with
          | nil => rfl
          | cons o os =>
            exfalso
            have hmo : o.1 ∈ (orders.map Prod.fst : List Int) := by
              rw [horders]; exact List.mem_map.mpr ⟨o, by simp, rfl⟩
            have := (hmem0 o.1).mp (by simpa using hmo)
            rw [Nat.add_zero, hk] at this
            simp at this
            omega
        rw [finalizeGroups, if_pos (by rw [hordnil]; rfl), hcast, hrec]
        have hexp : expectedGroups k gIdx (grp :: restG) =
            grp :: expectedGroups k (gIdx + 1) restG := by
          rw [expectedGroups, hk, intRange_zero, appendParsed_nil]
        rw [hexp]
        rfl
      · have hordne : ¬ orders.length = 0 := by
          intro h
          rw [List.length_eq_zero] at h
          have := (hmem0 0).mpr ⟨le_refl 0, by rw [Nat.add_zero]; omega⟩
          rw [h] at this
          simp at this
        rw [finalizeGroups, if_neg hordne,
            checkGroupOrders_ok (gIdx : Int) orders (k gIdx) (by simpa using hnd0)
              (by simpa using hmem0) (by simpa using hcomp0),
            hcast, hrec]
        rw [expectedGroups]
        rfl

theorem canonicalTriples_mem (k : Nat → Nat) (n : Nat) (tr : Int × Int × String) :
    tr ∈ canonicalTriples k n ↔
      ∃ g t : Nat, g < n ∧ t < k g ∧
        (tr = ((g : Int), (t : Int), "in") ∨ tr = ((g : Int), (t : Int), "out")) := by
  unfold canonicalTriples
  simp only [List.mem_bind, List.mem_range, List.mem_cons, List.mem_singleton,
    List.not_mem_nil, or_false]
  constructor
  · rintro ⟨g, hg, t, ht, h⟩
    exact ⟨g, t, hg, ht, h⟩
  · rintro ⟨g, t, hg, ht, h⟩
    exact ⟨g, hg, t, ht, h⟩

theorem canonicalTriples_nodup (k : Nat → Nat) (n : Nat) : (canonicalTriples k n).Nodup := by
  unfold canonicalTriples
  rw [List.nodup_bind]
  constructor
  · intro g _
    rw [List.nodup_bind]
    constructor
    · intro t _
      simp
    · rw [List.pairwise_iff_forall_sublist]
      intro t t' hsub
      have hp := (List.pairwise_lt_range (k g)).sublist hsub
      rw [List.pairwise_cons] at hp
      have htt : t < t' := hp.1 t' (by simp)
      intro x hx hx'
      simp only [List.mem_cons, List.mem_singleton, List.not_mem_nil, or_false] at hx hx'
      have e1 : x.2.1 = (t : Int) := by rcases hx with h | h <;> rw [h]
      have e2 : x.2.1 = (t' : Int) := by rcases hx' with h | h <;> rw [h]
      rw [e1] at e2
      have : t = t' := by exact_mod_cast e2
      omega
  · rw [List.pairwise_iff_forall_sublist]
    intro g g' hsub
    have hp := (List.pairwise_lt_range n).sublist hsub
    rw [List.pairwise_cons] at hp
    have hgg : g < g' := hp.1 g' (by simp)
    intro x hx hx'
    simp only [List.mem_bind, List.mem_range, List.mem_cons, List.mem_singleton,
      List.not_mem_nil, or_false] at hx hx'
    obtain ⟨t, _, hx⟩ := hx
    obtain ⟨t', _, hx'⟩ := hx'
    have e1 : x.1 = (g : Int) := by rcases hx with h | h <;> rw [h]
    have e2 : x.1 = (g' : Int) := by rcases hx' with h | h <;> rw [h]
    rw [e1] at e2
    have : g = g' := by exact_mod_cast e2
    omega

theorem flagInAt_init (n : Nat) (g t : Int) :
    flagInAt (List.replicate n []) g t = false := by
  unfold flagInAt
  rw [getD_replicate_nil]
  rfl

theorem flagOutAt_init (n : Nat) (g t : Int) :
    flagOutAt (List.replicate n []) g t = false := by
  unfold flagOutAt
  rw [getD_replicate_nil]
  rfl

theorem keysAt_init (n : Nat) (g : Int) : keysAt (List.replicate n []) g = [] := by
  unfold keysAt
  rw [getD_replicate_nil]
  rfl

/-- Master lemma: decoding a valid complete archive (entries all accepted,
triples a permutation of the canonical triple set, at least one testcase)
succeeds and returns the declared groups with the ascending orders
`0..k g - 1` appended to each group `g`. -/
theorem readTarGz_valid (es : TarStream) (tcGroups : List TestcaseGroup) (k : Nat → Nat)
    (hvalid : ∀ oe ∈ es, validEntry oe = true)
    (hperm : (triplesOf es).Perm (canonicalTriples k tcGroups.length))
    (hpos : canonicalTriples k tcGroups.length ≠ []) :
    readTestcaseFromTarGz es tcGroups = .ok (expectedGroups k 0 tcGroups) := by
  set n := tcGroups.length with hn
  have hmemc : ∀ tr ∈ triplesOf es, tr ∈ canonicalTriples k n := fun tr h => hperm.subset h
  have hbounds : ∀ tr ∈ triplesOf es, tripleInBounds n tr = true := by
    intro tr h
    obtain ⟨g, t, hg, ht, hcase⟩ := (canonicalTriples_mem k n tr).mp (hmemc tr h)
    rcases hcase with rfl | rfl <;>
      · rw [tripleInBounds]
        simp only [Bool.and_eq_true, Bool.or_eq_true, beq_iff_eq, decide_eq_true_eq]
        refine ⟨⟨by positivity, by exact_mod_cast hg⟩, by simp⟩
  have hnodup : (triplesOf es).Nodup := hperm.nodup_iff.mpr (canonicalTriples_nodup k n)
  have hfresh : ∀ tr ∈ triplesOf es,
      (tr.2.2 = "in" → flagInAt (List.replicate n []) tr.1 tr.2.1 = false) ∧
      (tr.2.2 = "out" → flagOutAt (List.replicate n []) tr.1 tr.2.1 = false) :=
    fun tr _ => ⟨fun _ => flagInAt_init n tr.1 tr.2.1, fun _ => flagOutAt_init n tr.1 tr.2.1⟩
  obtain ⟨st', hres, hlen', hin', hout', hkey', hnd'⟩ :=
    tarLoop_ok_characterization n "testcase-bundle-0" es (List.replicate n []) 0 []
      (List.length_replicate n []) hvalid hbounds hnodup hfresh
  have hLpos : ¬ (0 + (triplesOf es).length = 0) := by
    have := hperm.length_eq
    have h0 : canonicalTriples k n ≠ [] := hpos
    rw [← List.length_pos] at h0
    omega
  have hmem_tr : ∀ (j : Nat) (t : Int) (kind : String), j < n →
      (((j : Int), t, kind) ∈ triplesOf es ↔ ((j : Int), t, kind) ∈ canonicalTriples k n) :=
    fun j t kind _ => hperm.mem_iff
  unfold readTestcaseFromTarGz readTestcaseFromTarGzCore
  simp only [← hn, hres]
  rw [if_neg hLpos]
  have hfin : finalizeGroups ((0 : Nat) : Int) st' tcGroups =
      .ok (expectedGroups k 0 tcGroups) := by
    apply finalizeGroups_expected k st' tcGroups 0 (by rw [hlen'])
    intro j hj
    have hjn : j < n := by rw [← hlen']; exact hj
    have hjpos : (0 : Int) ≤ (j : Int) := by positivity
    have hkeys : keysAt st' (j : Int) = (st'.getD j []).map Prod.fst := by
      unfold keysAt
      rw [Int.toNat_natCast]
    have hmemkeys : ∀ t : Int, t ∈ (st'.getD j []).map Prod.fst ↔
        0 ≤ t ∧ t < (k (0 + j) : Int) := by
      intro t
      rw [← hkeys, hkey' (j : Int) t hjpos, keysAt_init]
      simp only [List.not_mem_nil, false_or, Nat.zero_add]
      constructor
      · rintro (h | h) <;>
        · obtain ⟨g', t', hg', ht', hcase⟩ :=
            (canonicalTriples_mem k n _).mp (hperm.subset h)
          rcases hcase with heq | heq <;>
          · rw [Prod.mk.injEq, Prod.mk.injEq] at heq
            obtain ⟨h1, h2, _⟩ := heq
            have : g' = j := by exact_mod_cast h1.symm
            subst this
            rw [h2]
            constructor
            · positivity
            · exact_mod_cast ht'
      · rintro ⟨h0, hk⟩
        left
        rw [hperm.mem_iff, canonicalTriples_mem]
        refine ⟨j, t.toNat, hjn, by omega, Or.inl ?_⟩
        rw [Prod.mk.injEq, Prod.mk.injEq]
        exact ⟨rfl, by omega, rfl⟩
    refine ⟨?_, hmemkeys, ?_⟩
    · have := hnd' (j : Int) (by rw [keysAt_init]; exact List.nodup_nil)
      rw [hkeys] at this
      exact this
    · intro t p hm
      have hndk : ((st'.getD j []).map Prod.fst).Nodup := by
        have := hnd' (j : Int) (by rw [keysAt_init]; exact List.nodup_nil)
        rw [hkeys] at this
        exact this
      have hlook : lookupOrd (st'.getD j []) t = some p :=
        lookupOrd_of_mem_nodup _ t p hndk hm
      have htk : t ∈ (st'.getD j []).map Prod.fst :=
        List.mem_map.mpr ⟨(t, p), hm, rfl⟩
      obtain ⟨ht0, htlt⟩ := (hmemkeys t).mp htk
      have hmemin : ((j : Int), t, "in") ∈ triplesOf es := by
        rw [hperm.mem_iff, canonicalTriples_mem]
        refine ⟨j, t.toNat, hjn, by simpa using (by omega : t.toNat < k (0 + j)), Or.inl ?_⟩
        rw [Prod.mk.injEq, Prod.mk.injEq]
        exact ⟨rfl, by omega, rfl⟩
      have hmemout : ((j : Int), t, "out") ∈ triplesOf es := by
        rw [hperm.mem_iff, canonicalTriples_mem]
        refine ⟨j, t.toNat, hjn, by simpa using (by omega : t.toNat < k (0 + j)), Or.inr ?_⟩
        rw [Prod.mk.injEq, Prod.mk.injEq]
        exact ⟨rfl, by omega, rfl⟩
      have hflagin : flagInAt st' (j : Int) t = true := by
        rw [hin' (j : Int) t hjpos, flagInAt_init]
        simp [hmemin]
      have hflagout : flagOutAt st' (j : Int) t = true := by
        rw [hout' (j : Int) t hjpos, flagOutAt_init]
        simp [hmemout]
      unfold flagInAt at hflagin
      unfold flagOutAt at hflagout
      rw [Int.toNat_natCast, hlook] at hflagin hflagout
      exact ⟨hflagin, hflagout⟩
  rw [show ((0 : Nat) : Int) = (0 : Int) from rfl] at hfin
  exact hfin

theorem expectedGroups_getD (k : Nat → Nat) :
    ∀ (groups : List TestcaseGroup) (gIdx j : Nat), j < groups.length →
      (expectedGroups k gIdx groups).getD j {} =
        appendParsed (groups.getD j {}) (intRange (k (gIdx + j))) := by
  intro groups
  induction groups with
  | nil => intro gIdx j h; cases h
  | cons grp rest ih =>
    intro gIdx j h
    match j with
    | 0 => rw [Nat.add_zero]; rfl
    | j + 1 =>
      have := ih (gIdx + 1) j (by simpa using h)
      rw [show gIdx + (j + 1) = (gIdx + 1) + j from by omega]
      exact this

/-- C1: for every declared groups list (declared groups carry empty testcase
lists) and every valid archive — all entries accepted, and the parsed triples
forming, for each group `g` with files, exactly the pairs `g_0.in/g_0.out`
through `g_(k-1).in/g_(k-1).out` in any order, with at least one pair in
total — ingestion succeeds and group `g`'s testcase list has exactly `k g`
entries whose `order_id` values ascend `0..k g - 1`. -/
theorem C1_valid_archive_group_manifest (es : TarStream) (tcGroups : List TestcaseGroup)
    (k : Nat → Nat)
    (hempty : ∀ grp ∈ tcGroups, grp.testcases = [])
    (hvalid : ∀ oe ∈ es, validEntry oe = true)
    (hperm : (triplesOf es).Perm (canonicalTriples k tcGroups.length))
    (hpos : canonicalTriples k tcGroups.length ≠ []) :
    readTestcaseFromTarGz es tcGroups = .ok (expectedGroups k 0 tcGroups) ∧
    ∀ g : Nat, g < tcGroups.length →
      ((expectedGroups k 0 tcGroups).getD g {}).testcases.map Testcase.orderID =
        intRange (k g) := by
  refine ⟨readTarGz_valid es tcGroups k hvalid hperm hpos, ?_⟩
  intro g hg
  rw [expectedGroups_getD k tcGroups 0 g hg, Nat.zero_add]
  have hmem : tcGroups.getD g {} ∈ tcGroups := by
    rw [List.getD_eq_getElem tcGroups {} hg]
    exact List.getElem_mem hg
  have hemp : (tcGroups.getD g {}).testcases = [] := hempty _ hmem
  show ((tcGroups.getD g {}).testcases ++
      (intRange (k g)).map (fun t => { orderID := t : Testcase })).map Testcase.orderID =
    intRange (k g)
  rw [hemp]
  simp only [List.nil_append, List.map_map]
  have hid : (Testcase.orderID ∘ fun t => ({ orderID := t } : Testcase)) = id := by
    funext t
    rfl
  rw [hid, List.map_id]

/-- C1 witness: one declared group, archive entries `0_0.out` then `0_0.in`
(order scrambled); ingestion succeeds with the single testcase order 0. -/
theorem C1_valid_archive_group_manifest_witness :
    readTestcaseFromTarGz
        [some { name := "0_0.out" }, some { name := "0_0.in" }]
        [{ orderID := 0, name := "g0", points := 10 }] =
      .ok (expectedGroups (fun _ => 1) 0 [{ orderID := 0, name := "g0", points := 10 }]) ∧
    ((expectedGroups (fun _ => 1) 0
        [{ orderID := 0, name := "g0", points := 10 }]).getD 0 {}).testcases.map
      Testcase.orderID = intRange 1 :=
  ⟨(C1_valid_archive_group_manifest
      [some { name := "0_0.out" }, some { name := "0_0.in" }]
      [{ orderID := 0, name := "g0", points := 10 }] (fun _ => 1)
      (by intro grp h; simp at h; rw [h]) (by decide) (by decide) (by decide)).1,
    (C1_valid_archive_group_manifest
      [some { name := "0_0.out" }, some { name := "0_0.in" }]
      [{ orderID := 0, name := "g0", points := 10 }] (fun _ => 1)
      (by intro grp h; simp at h; rw [h]) (by decide) (by decide) (by decide)).2 0
      (by norm_num)⟩

/-- C10: when a declared group arrives with a pre-existing non-empty testcase
list, a successful ingestion appends the newly parsed orders (sorted
ascending) after the pre-existing entries of that group's list rather than
replacing it. -/
theorem C10_preexisting_testcases_appended (es : TarStream) (tcGroups : List TestcaseGroup)
    (k : Nat → Nat)
    (hvalid : ∀ oe ∈ es, validEntry oe = true)
    (hperm : (triplesOf es).Perm (canonicalTriples k tcGroups.length))
    (hpos : canonicalTriples k tcGroups.length ≠ []) :
    readTestcaseFromTarGz es tcGroups = .ok (expectedGroups k 0 tcGroups) ∧
    ∀ g : Nat, g < tcGroups.length →
      ((expectedGroups k 0 tcGroups).getD g {}).testcases =
        (tcGroups.getD g {}).testcases ++
          (intRange (k g)).map (fun t => { orderID := t : Testcase }) := by
  refine ⟨readTarGz_valid es tcGroups k hvalid hperm hpos, ?_⟩
  intro g hg
  rw [expectedGroups_getD k tcGroups 0 g hg, Nat.zero_add]
  rfl

/-- C10 witness: a supplied group already holding a testcase with order 7
ends with that entry followed by the parsed order 0. -/
theorem C10_preexisting_testcases_appended_witness :
    ((expectedGroups (fun _ => 1) 0
        [{ orderID := 0, name := "g0", points := 10,
           testcases := [{ orderID := 7, input := "pre" }] }]).getD 0 {}).testcases =
      [{ orderID := 7, input := "pre" }] ++
        (intRange 1).map (fun t => { orderID := t : Testcase }) :=
  (C10_preexisting_testcases_appended
      [some { name := "0_0.in" }, some { name := "0_0.out" }]
      [{ orderID := 0, name := "g0", points := 10,
         testcases := [{ orderID := 7, input := "pre" }] }] (fun _ => 1)
      (by decide) (by decide) (by decide)).2 0 (by norm_num)

/-- The entry loop processes a stream prefix first: if the prefix completes
without error, the loop on the concatenation continues from the prefix's
state, count and write trace. -/
theorem tarLoop_append (numGroups : Nat) (tempDir : String) :
    ∀ (es1 es2 : TarStream) (st : GroupsState) (count : Nat) (written : List String)
      (st1 : GroupsState) (c1 : Nat) (w1 : List String),
      tarLoop numGroups tempDir es1 st count written = (.ok (st1, c1), w1) →
      tarLoop numGroups tempDir (es1 ++ es2) st count written =
        tarLoop numGroups tempDir es2 st1 c1 w1 := by
  intro es1
  induction es1 with
  | nil =>
    intro es2 st count written st1 c1 w1 h
    rw [tarLoop] at h
    injection h with h1 h2
    injection h1 with h1
    injection h1 with h3 h4
    subst h2; subst h3; subst h4
    rw [List.nil_append]
  | cons oe rest ih =>
    intro es2 st count written st1 c1 w1 h
    match oe with
    | none =>
      rw [tarLoop] at h
      exact absurd (congrArg Prod.fst h) (by simp)
    | some e =>
      rw [List.cons_append]
      by_cases hdir : e.isDir = true
      · rw [tarLoop, if_pos hdir] at h
        rw [tarLoop, if_pos hdir]
        exact ih es2 st count written st1 c1 w1 h
      · by_cases hreg : e.isRegular = true
        · rcases hval : validateBundleFilename e.name with verr | vu
          · rw [tarLoop] at h
            simp only [if_neg hdir, if_neg (not_not_intro hreg), hval] at h
            exact absurd (congrArg Prod.fst h) (by simp)
          · rcases hparse : parseTestcaseFilename (pathBase (pathClean e.name)) with perr | tr0
            · rw [tarLoop] at h
              simp only [if_neg hdir, if_neg (not_not_intro hreg), hval, hparse] at h
              exact absurd (congrArg Prod.fst h) (by simp)
            · obtain ⟨g, t, ext⟩ := tr0
              by_cases hb : (decide (g < 0) || decide ((numGroups : Int) ≤ g)) = true
              · rw [tarLoop] at h
                simp only [if_neg hdir, if_neg (not_not_intro hreg), hval, hparse,
                  if_pos hb] at h
                exact absurd (congrArg Prod.fst h) (by simp)
              · rcases happ : applyEntryFlag st g t ext (pathBase (pathClean e.name)) with
                  aerr | st2
                · rw [tarLoop] at h
                  simp only [if_neg hdir, if_neg (not_not_intro hreg), hval, hparse,
                    if_neg hb, happ] at h
                  exact absurd (congrArg Prod.fst h) (by simp)
                · by_cases hx : e.extractOk = true
                  · rw [tarLoop] at h
                    simp only [if_neg hdir, if_neg (not_not_intro hreg), hval, hparse,
                      if_neg hb, happ, if_pos hx] at h
                    rw [tarLoop]
                    simp only [if_neg hdir, if_neg (not_not_intro hreg), hval, hparse,
                      if_neg hb, happ, if_pos hx]
                    exact ih es2 _ _ _ _ _ _ h
                  · rw [tarLoop] at h
                    simp only [if_neg hdir, if_neg (not_not_intro hreg), hval, hparse,
                      if_neg hb, happ, if_neg hx] at h
                    exact absurd (congrArg Prod.fst h) (by simp)
        · rw [tarLoop] at h
          simp only [if_neg hdir, if_pos hreg] at h
          exact absurd (congrArg Prod.fst h) (by simp)

/-- C6: if an entry resolves — by parsed integer value — to a (group, order,
kind) triple already recorded by an earlier entry of the stream, ingestion
fails with the duplicate-file error naming that group, order and kind; in
particular the raw names `0_0.in` and `00_0.in` collide because resolution is
by parsed value. -/
theorem C6_duplicate_testcase_file :
    (∀ (es1 es2 : TarStream) (e : TarEntry) (tcGroups : List TestcaseGroup)
       (g t : Int) (kind : String),
      (∀ oe ∈ es1, validEntry oe = true) →
      (∀ tr ∈ triplesOf es1, tripleInBounds tcGroups.length tr = true) →
      (triplesOf es1).Nodup →
      validEntry (some e) = true →
      entryTriple (some e) = some (g, t, kind) →
      tripleInBounds tcGroups.length (g, t, kind) = true →
      (g, t, kind) ∈ triplesOf es1 →
      readTestcaseFromTarGz (es1 ++ some e :: es2) tcGroups =
        .error (if kind = "in" then .duplicateInput g t else .duplicateOutput g t)) ∧
    readTestcaseFromTarGz
        [some { name := "0_0.in" }, some { name := "00_0.in" }]
        [{ orderID := 0, name := "g0", points := 10 }] =
      .error (.duplicateInput 0 0) := by
  constructor
  · intro es1 es2 e tcGroups g t kind hvalid hbounds hnodup hve htr hbtr hmem
    set n := tcGroups.length with hn
    have hfresh : ∀ tr ∈ triplesOf es1,
        (tr.2.2 = "in" → flagInAt (List.replicate n []) tr.1 tr.2.1 = false) ∧
        (tr.2.2 = "out" → flagOutAt (List.replicate n []) tr.1 tr.2.1 = false) :=
      fun tr _ => ⟨fun _ => flagInAt_init n tr.1 tr.2.1, fun _ => flagOutAt_init n tr.1 tr.2.1⟩
    obtain ⟨st', hres, hlen', hin', hout', hkey', hnd'⟩ :=
      tarLoop_ok_characterization n "testcase-bundle-0" es1 (List.replicate n []) 0 []
        (List.length_replicate n []) hvalid hbounds hnodup hfresh
    have hpair : tarLoop n "testcase-bundle-0" es1 (List.replicate n []) 0 [] =
        (.ok (st', 0 + (triplesOf es1).length),
          (tarLoop n "testcase-bundle-0" es1 (List.replicate n []) 0 []).2) := by
      rw [← hres]
    have happend := tarLoop_append n "testcase-bundle-0" es1 (some e :: es2)
      (List.replicate n []) 0 [] st' (0 + (triplesOf es1).length) _ hpair
    -- extract entry facts
    have hdir : e.isDir = false := by
      by_cases hd : e.isDir = true
      · rw [entryTriple, if_pos hd] at htr
        exact absurd htr (by simp)
      · simpa using hd
    have hparse : parseTestcaseFilename (pathBase (pathClean e.name)) = .ok (g, t, kind) := by
      rw [entryTriple, if_neg (by simp [hdir])] at htr
      rcases hp : parseTestcaseFilename (pathBase (pathClean e.name)) with perr | v
      · rw [hp] at htr
        exact absurd htr (by simp [Except.toOption])
      · rw [hp] at htr
        have hv : v = (g, t, kind) := by simpa [Except.toOption] using htr
        rw [← hv]
    rw [validEntry, Bool.or_eq_true] at hve
    rcases hve with hd | hve
    · exact absurd hd (by simp [hdir])
    rw [Bool.and_eq_true, Bool.and_eq_true, Bool.and_eq_true] at hve
    obtain ⟨⟨⟨hreg, hxok⟩, hvb⟩, _⟩ := hve
    rcases hval : validateBundleFilename e.name with verr | vu
    · rw [hval] at hvb; simp at hvb
    rw [tripleInBounds, Bool.and_eq_true, Bool.and_eq_true] at hbtr
    obtain ⟨⟨hg0', hgn'⟩, hkind'⟩ := hbtr
    have hg0 : (0 : Int) ≤ g := by simpa using hg0'
    have hgn : g < (n : Int) := by simpa using hgn'
    have hkind : kind = "in" ∨ kind = "out" := by
      rcases Bool.or_eq_true_iff.mp hkind' with hx | hx
      · exact Or.inl (by simpa using hx)
      · exact Or.inr (by simpa using hx)
    have hbcond : ¬ ((decide (g < 0) || decide ((n : Int) ≤ g)) = true) := by
      simp only [Bool.or_eq_true, decide_eq_true_eq]
      omega
    unfold readTestcaseFromTarGz readTestcaseFromTarGzCore
    simp only [← hn, happend]
    rcases hkind with hkd | hkd
    · subst hkd
      have hflagraw : ((lookupOrd (st'.getD g.toNat []) t).getD {}).inFlag = true := by
        have := hin' g t hg0
        rw [flagInAt_init] at this
        unfold flagInAt at this
        rw [this]
        simp [hmem]
      have happx : applyEntryFlag st' g t "in" (pathBase (pathClean e.name)) =
          .error (.duplicateInput g t) := by
        unfold applyEntryFlag
        rw [if_pos rfl, if_pos hflagraw]
      rw [tarLoop]
      simp only [if_neg (by simp [hdir] : ¬ e.isDir = true), if_neg (not_not_intro hreg),
        hval, hparse, if_neg hbcond, happx]
      simp
    · subst hkd
      have hflagraw : ((lookupOrd (st'.getD g.toNat []) t).getD {}).outFlag = true := by
        have := hout' g t hg0
        rw [flagOutAt_init] at this
        unfold flagOutAt at this
        rw [this]
        simp [hmem]
      have happx : applyEntryFlag st' g t "out" (pathBase (pathClean e.name)) =
          .error (.duplicateOutput g t) := by
        unfold applyEntryFlag
        rw [if_neg (by decide : ¬ ("out" = "in")), if_pos rfl, if_pos hflagraw]
      rw [tarLoop]
      simp only [if_neg (by simp [hdir] : ¬ e.isDir = true), if_neg (not_not_intro hreg),
        hval, hparse, if_neg hbcond, happx]
      simp
  · decide

/-- C6 witness: the archive `0_0.in` twice fails with the duplicate-input
error for group 0, order 0. -/
theorem C6_duplicate_testcase_file_witness :
    readTestcaseFromTarGz
        [some { name := "0_0.in" }, some { name := "0_0.in" }]
        [{ orderID := 0, name := "g0", points := 10 }] =
      .error (.duplicateInput 0 0) := by
  have h := C6_duplicate_testcase_file.1 [some { name := "0_0.in" }] []
    { name := "0_0.in" } [{ orderID := 0, name := "g0", points := 10 }] 0 0 "in"
    (by decide) (by decide) (by decide) (by decide) (by decide) (by decide) (by decide)
  simpa using h

/-! ## Symbolic filename parsing lemmas -/

theorem isGoDigit_ne (c : Char) (h : isGoDigit c = true) :
    c ≠ '.' ∧ c ≠ '/' ∧ c ≠ '_' ∧ c ≠ '-' ∧ c ≠ '+' := by
  refine ⟨?_, ?_, ?_, ?_, ?_⟩ <;> (rintro rfl; exact absurd h (by decide))

theorem extScan_append (e : List Char) :
    ∀ (lrev acc : List Char), (∀ c ∈ e, c ≠ '.' ∧ c ≠ '/') →
      extScan (e ++ '.' :: lrev) acc = '.' :: (e.reverse ++ acc) := by
  induction e with
  | nil => intro lrev acc _; simp [extScan]
  | cons c cs ih =>
    intro lrev acc he
    obtain ⟨h1, h2⟩ := he c (by simp)
    rw [List.cons_append, extScan, if_neg h2, if_neg h1,
      ih lrev (c :: acc) (fun c' hc => he c' (by simp [hc]))]
    simp

theorem pathExt_append_dot (l e : List Char) (he : ∀ c ∈ e, c ≠ '.' ∧ c ≠ '/') :
    pathExt (String.mk (l ++ '.' :: e)) = String.mk ('.' :: e) := by
  unfold pathExt
  show String.mk (extScan (l ++ '.' :: e).reverse []) = _
  rw [List.reverse_append, List.reverse_cons, List.append_assoc, List.singleton_append,
    extScan_append e.reverse l.reverse [] (fun c hc => he c (List.mem_reverse.mp hc))]
  simp

theorem goHasSuffix_append (a b : List Char) :
    goHasSuffix (String.mk (a ++ b)) (String.mk b) = true := by
  unfold goHasSuffix endsWithList
  show startsWithList b.reverse (a ++ b).reverse = true
  rw [List.reverse_append]
  exact startsWithList_self_append _ _

theorem goTrimSuffixStr_append (a b : List Char) :
    goTrimSuffixStr (String.mk (a ++ b)) (String.mk b) = String.mk a := by
  unfold goTrimSuffixStr
  rw [if_pos (goHasSuffix_append a b)]
  show String.mk ((a ++ b).take ((a ++ b).length - b.length)) = String.mk a
  rw [List.length_append, show a.length + b.length - b.length = a.length from by omega,
    List.take_left]

theorem splitUnder_no_underscore (l : List Char) (h : ∀ c ∈ l, c ≠ '_') :
    splitUnder l = [l] := by
  induction l with
  | nil => rfl
  | cons c cs ih =>
    rw [splitUnder, if_neg (h c (by simp)), ih (fun c' hc => h c' (by simp [hc]))]

theorem splitUnder_append (d1 d2 : List Char) (h1 : ∀ c ∈ d1, c ≠ '_')
    (h2 : ∀ c ∈ d2, c ≠ '_') :
    splitUnder (d1 ++ '_' :: d2) = [d1, d2] := by
  induction d1 with
  | nil =>
    rw [List.nil_append, splitUnder, if_pos rfl, splitUnder_no_underscore d2 h2]
  | cons c cs ih =>
    rw [List.cons_append, splitUnder, if_neg (h1 c (by simp)),
      ih (fun c' hc => h1 c' (by simp [hc]))]

theorem digitsValGo_spec (l : List Char) :
    ∀ acc : Nat, (∀ c ∈ l, isGoDigit c = true) →
      digitsValGo l acc =
        some (l.foldl (fun a c => a * 10 + (c.toNat - '0'.toNat)) acc) := by
  induction l with
  | nil => intro acc _; rfl
  | cons c cs ih =>
    intro acc h
    rw [digitsValGo, if_pos (h c (by simp)), ih _ (fun c' hc => h c' (by simp [hc]))]
    rfl

theorem digitsValN_digits (l : List Char) (hne : l ≠ [])
    (h : ∀ c ∈ l, isGoDigit c = true) : digitsValN l = some (digitsVal l) := by
  match l with
  | [] => exact absurd rfl hne
  | c :: cs =>
    show digitsValGo (c :: cs) 0 = some (digitsVal (c :: cs))
    exact digitsValGo_spec (c :: cs) 0 h

theorem atoiList_digits (l : List Char) (hne : l ≠ [])
    (h : ∀ c ∈ l, isGoDigit c = true) :
    atoiList l = if digitsVal l ≤ maxGoInt then some ((digitsVal l : Int)) else none := by
  match l with
  | [] => exact absurd rfl hne
  | c :: cs =>
    obtain ⟨_, _, _, hminus, hplus⟩ := isGoDigit_ne c (h c (by simp))
    rw [atoiList, if_neg hminus, if_neg hplus, digitsValN_digits (c :: cs) (by simp) h]

/-- Full symbolic evaluation of `parseTestcaseFilename` on a grammar-shaped
base name: both indices are converted with the 64-bit range check of
`strconv.Atoi`. -/
theorem parseTestcaseFilename_spec (d1 d2 e : List Char)
    (h1 : d1 ≠ []) (h2 : d2 ≠ [])
    (hd1 : ∀ c ∈ d1, isGoDigit c = true) (hd2 : ∀ c ∈ d2, isGoDigit c = true)
    (he : e = ['i', 'n'] ∨ e = ['o', 'u', 't']) :
    parseTestcaseFilename (String.mk (d1 ++ '_' :: d2 ++ '.' :: e)) =
      if digitsVal d1 ≤ maxGoInt then
        if digitsVal d2 ≤ maxGoInt then
          .ok ((digitsVal d1 : Int), (digitsVal d2 : Int), String.mk e)
        else .error (.invalidFilename (String.mk (d1 ++ '_' :: d2 ++ '.' :: e)))
      else .error (.invalidFilename (String.mk (d1 ++ '_' :: d2 ++ '.' :: e))) := by
  have hedot : ∀ c ∈ e, c ≠ '.' ∧ c ≠ '/' := by
    rcases he with rfl | rfl <;>
      · intro c hc
        fin_cases hc <;> exact ⟨by decide, by decide⟩
  have hene : ¬ (String.mk e = "") := by rcases he with rfl | rfl <;> decide
  have hshape : d1 ++ '_' :: d2 ++ '.' :: e = (d1 ++ '_' :: d2) ++ '.' :: e := by
    simp
  have hext : pathExt (String.mk (d1 ++ '_' :: d2 ++ '.' :: e)) = String.mk ('.' :: e) := by
    rw [hshape]
    exact pathExt_append_dot (d1 ++ '_' :: d2) e hedot
  have htrim : trimDotStart (String.mk ('.' :: e)) = String.mk e := rfl
  have hname : goTrimSuffixStr (String.mk (d1 ++ '_' :: d2 ++ '.' :: e))
      (String.mk ('.' :: (String.mk e).data)) = String.mk (d1 ++ '_' :: d2) := by
    show goTrimSuffixStr (String.mk (d1 ++ '_' :: d2 ++ '.' :: e))
      (String.mk ('.' :: e)) = String.mk (d1 ++ '_' :: d2)
    rw [hshape]
    exact goTrimSuffixStr_append (d1 ++ '_' :: d2) ('.' :: e)
  have hsplit : splitUnder (String.mk (d1 ++ '_' :: d2)).data = [d1, d2] := by
    show splitUnder (d1 ++ '_' :: d2) = [d1, d2]
    exact splitUnder_append d1 d2 (fun c hc => (isGoDigit_ne c (hd1 c hc)).2.2.1)
      (fun c hc => (isGoDigit_ne c (hd2 c hc)).2.2.1)
  simp only [parseTestcaseFilename]
  rw [hext, htrim, hname, hsplit]
  rw [if_neg (by
    simp only [Bool.or_eq_true, decide_eq_true_eq]
    rintro (hc | hc)
    · exact hene hc
    · simp at hc)]
  show (match strconvAtoi (String.mk d1) with
    | none => Except.error (IngestErr.invalidFilename (String.mk (d1 ++ '_' :: d2 ++ '.' :: e)))
    | some groupOrder =>
      match strconvAtoi (String.mk d2) with
      | none => Except.error (IngestErr.invalidFilename (String.mk (d1 ++ '_' :: d2 ++ '.' :: e)))
      | some testcaseOrder =>
        if groupOrder < 0 || testcaseOrder < 0 then
          Except.error (IngestErr.invalidFilename (String.mk (d1 ++ '_' :: d2 ++ '.' :: e)))
        else Except.ok (groupOrder, testcaseOrder, String.mk e)) = _
  have ha1 : strconvAtoi (String.mk d1) = atoiList d1 := rfl
  have ha2 : strconvAtoi (String.mk d2) = atoiList d2 := rfl
  rw [ha1, ha2, atoiList_digits d1 h1 hd1, atoiList_digits d2 h2 hd2]
  by_cases hb1 : digitsVal d1 ≤ maxGoInt
  · rw [if_pos hb1, if_pos hb1]
    by_cases hb2 : digitsVal d2 ≤ maxGoInt
    · rw [if_pos hb2, if_pos hb2]
      show (if ((digitsVal d1 : Int) < 0 || (digitsVal d2 : Int) < 0) = true then _ else _) = _
      rw [if_neg (by
        simp only [Bool.or_eq_true, decide_eq_true_eq]
        rintro (hc | hc) <;> omega)]
    · rw [if_neg hb2, if_neg hb2]
  · rw [if_neg hb1, if_neg hb1]

/-- C5 counterexample support and amended statement: for every base filename
matching the grammar, the group and testcase fields are parsed as
non-negative decimals with leading zeros neither required nor disallowed, and
a value is accepted exactly when it fits a 64-bit signed integer
(`≤ maxGoInt`); a larger magnitude is rejected with `InvalidFilename`. -/
theorem C5_parse_index_magnitude (d1 d2 : List Char) (ext : String)
    (h1 : d1 ≠ []) (h2 : d2 ≠ [])
    (hd1 : ∀ c ∈ d1, isGoDigit c = true) (hd2 : ∀ c ∈ d2, isGoDigit c = true)
    (hext : ext = "in" ∨ ext = "out") :
    (digitsVal d1 ≤ maxGoInt → digitsVal d2 ≤ maxGoInt →
      parseTestcaseFilename (String.mk (d1 ++ '_' :: d2 ++ '.' :: ext.data)) =
        .ok ((digitsVal d1 : Int), (digitsVal d2 : Int), ext)) ∧
    (maxGoInt < digitsVal d1 ∨ maxGoInt < digitsVal d2 →
      parseTestcaseFilename (String.mk (d1 ++ '_' :: d2 ++ '.' :: ext.data)) =
        .error (.invalidFilename (String.mk (d1 ++ '_' :: d2 ++ '.' :: ext.data)))) := by
  have he : ext.data = ['i', 'n'] ∨ ext.data = ['o', 'u', 't'] := by
    rcases hext with rfl | rfl
    · exact Or.inl rfl
    · exact Or.inr rfl
  have hmk : String.mk ext.data = ext := rfl
  have hspec := parseTestcaseFilename_spec d1 d2 ext.data h1 h2 hd1 hd2 he
  constructor
  · intro hb1 hb2
    rw [hspec, if_pos hb1, if_pos hb2, hmk]
  · intro hover
    rcases hover with h | h
    · rw [hspec, if_neg (by omega)]
    · by_cases hb1 : digitsVal d1 ≤ maxGoInt
      · rw [hspec, if_pos hb1, if_neg (by omega)]
      · rw [hspec, if_neg hb1]

/-- C5 witness: `007_1.in` — leading zeros accepted, values parsed as 7
and 1. -/
theorem C5_parse_index_magnitude_witness :
    parseTestcaseFilename "007_1.in" = .ok (7, 1, "in") := by
  have h := (C5_parse_index_magnitude ['0', '0', '7'] ['1'] "in"
    (by decide) (by decide) (by decide) (by decide) (Or.inl rfl)).1 (by decide) (by decide)
  exact h

theorem validateBundleFilename_ok (name : String) :
    validateBundleFilename name = .ok () ↔
      pathClean name ≠ "." ∧ pathBase (pathClean name) = pathClean name ∧
      '\\' ∉ (pathBase (pathClean name)).data ∧
      matchTestcaseFilenamePattern (pathBase (pathClean name)) = true := by
  unfold validateBundleFilename
  by_cases h1 : pathClean name = "."
  · rw [if_pos h1]
    exact iff_of_false (by simp) (fun hc => hc.1 h1)
  · rw [if_neg h1]
    by_cases h2 : pathBase (pathClean name) = pathClean name
    · rw [if_neg (not_not_intro h2)]
      by_cases h3 : (pathBase (pathClean name)).data.contains '\\' = true
      · rw [if_pos h3]
        have h3' : '\\' ∈ (pathBase (pathClean name)).data := by simpa using h3
        exact iff_of_false (by simp) (fun hc => hc.2.2.1 h3')
      · rw [if_neg h3]
        by_cases h4 : matchTestcaseFilenamePattern (pathBase (pathClean name)) = true
        · rw [if_neg (not_not_intro h4)]
          have h3' : '\\' ∉ (pathBase (pathClean name)).data := by simpa using h3
          exact iff_of_true rfl ⟨h1, h2, h3', h4⟩
        · rw [if_pos h4]
          exact iff_of_false (by simp) (fun hc => h4 hc.2.2.2)
    · rw [if_pos h2]
      exact iff_of_false (by simp) (fun hc => h2 hc.2.1)

/-- A grammar match decomposes the name into its digit runs and its `in`/`out`
tail. -/
theorem matchPattern_decomp (s : String) (h : matchTestcaseFilenamePattern s = true) :
    ∃ d1 d2 e : List Char, s.data = d1 ++ '_' :: d2 ++ '.' :: e ∧ d1 ≠ [] ∧ d2 ≠ [] ∧
      (∀ c ∈ d1, isGoDigit c = true) ∧ (∀ c ∈ d2, isGoDigit c = true) ∧
      (e = ['i', 'n'] ∨ e = ['o', 'u', 't']) := by
  rw [matchTestcaseFilenamePattern, Bool.and_eq_true, decide_eq_true_eq] at h
  obtain ⟨hne1, hu⟩ := h
  rcases hr1 : s.data.dropWhile isGoDigit with _ | ⟨c, r2⟩
  · rw [hr1] at hu
    exact absurd hu (by simp [matchTailUnder])
  rw [hr1, matchTailUnder, Bool.and_eq_true, Bool.and_eq_true] at hu
  obtain ⟨⟨hcu, hne2⟩, hd⟩ := hu
  have hcu' : c = '_' := by simpa using hcu
  rw [decide_eq_true_eq] at hne2
  rcases hr3 : r2.dropWhile isGoDigit with _ | ⟨c2, r4⟩
  · rw [hr3] at hd
    exact absurd hd (by simp [matchTailDot])
  rw [hr3, matchTailDot, Bool.and_eq_true] at hd
  obtain ⟨hc2, he⟩ := hd
  have hc2' : c2 = '.' := by simpa using hc2
  refine ⟨s.data.takeWhile isGoDigit, r2.takeWhile isGoDigit, r4, ?_, hne1, hne2, ?_, ?_, ?_⟩
  · have hr2 : r2 = r2.takeWhile isGoDigit ++ '.' :: r4 := by
      conv_lhs => rw [← List.takeWhile_append_dropWhile (p := isGoDigit) (l := r2)]
      rw [hr3, hc2']
    conv_lhs => rw [← List.takeWhile_append_dropWhile (p := isGoDigit) (l := s.data)]
    rw [hr1, hcu']
    conv_lhs => rw [hr2]
    simp
  · exact fun c' hc => List.mem_takeWhile_imp hc
  · exact fun c' hc => List.mem_takeWhile_imp hc
  · rcases Bool.or_eq_true_iff.mp he with hx | hx
    · exact Or.inl (by simpa using hx)
    · exact Or.inr (by simpa using hx)

/-- Splitting at a separator absent from the right-hand decomposition is
unique. -/
theorem append_cons_inj (sep : Char) :
    ∀ (a b c d : List Char), sep ∉ c → sep ∉ d →
      a ++ sep :: b = c ++ sep :: d → a = c ∧ b = d := by
  intro a
  induction a with
  | nil =>
    intro b c d hc hd h
    match c with
    | [] =>
      rw [List.nil_append, List.nil_append] at h
      injection h with _ h2
      exact ⟨rfl, h2⟩
    | c0 :: cs =>
      rw [List.nil_append, List.cons_append] at h
      injection h with h1 _
      exact absurd (h1 ▸ List.mem_cons_self c0 cs) hc
  | cons a0 as ih =>
    intro b c d hc hd h
    match c with
    | [] =>
      rw [List.nil_append, List.cons_append] at h
      injection h with h1 h2
      exfalso
      apply hd
      rw [← h2]
      exact List.mem_append.mpr (Or.inr (List.mem_cons_self _ _))
    | c0 :: cs =>
      rw [List.cons_append, List.cons_append] at h
      injection h with h1 h2
      obtain ⟨hac, hbd⟩ := ih b cs d (fun hm => hc (List.mem_cons_of_mem _ hm)) hd h2
      exact ⟨by rw [h1, hac], hbd⟩

/-- C7 (amended): a name passing the validator has a cleaned base name that
matches the grammar exactly, is free of directory components and
backslashes; conversely a non-matching base name never passes; and for a
validated name decomposed as `d1_d2.kind`, the parser yields the triple
`(value d1, value d2, kind)` exactly when both decimal values fit a 64-bit
signed integer, and fails with `InvalidFilename` when either overflows. -/
theorem C7_filename_validator (name : String) :
    (validateBundleFilename name = .ok () →
      matchTestcaseFilenamePattern (pathBase (pathClean name)) = true ∧
      '\\' ∉ (pathBase (pathClean name)).data ∧
      pathBase (pathClean name) = pathClean name) ∧
    (matchTestcaseFilenamePattern (pathBase (pathClean name)) = false →
      validateBundleFilename name ≠ .ok ()) ∧
    (∀ d1 d2 ekind : List Char,
      validateBundleFilename name = .ok () →
      (pathBase (pathClean name)).data = d1 ++ '_' :: d2 ++ '.' :: ekind →
      (digitsVal d1 ≤ maxGoInt → digitsVal d2 ≤ maxGoInt →
        parseTestcaseFilename (pathBase (pathClean name)) =
          .ok ((digitsVal d1 : Int), (digitsVal d2 : Int), String.mk ekind)) ∧
      (maxGoInt < digitsVal d1 ∨ maxGoInt < digitsVal d2 →
        parseTestcaseFilename (pathBase (pathClean name)) =
          .error (.invalidFilename (pathBase (pathClean name))))) := by
  refine ⟨?_, ?_, ?_⟩
  · intro h
    obtain ⟨_, h2, h3, h4⟩ := (validateBundleFilename_ok name).mp h
    exact ⟨h4, h3, h2⟩
  · intro hm h
    obtain ⟨_, _, _, h4⟩ := (validateBundleFilename_ok name).mp h
    rw [hm] at h4
    cases h4
  · intro d1 d2 ekind hok hdecomp
    obtain ⟨_, _, _, hmatch⟩ := (validateBundleFilename_ok name).mp hok
    obtain ⟨d1', d2', e', hd', hne1', hne2', hdig1', hdig2', he'⟩ :=
      matchPattern_decomp _ hmatch
    rw [hdecomp] at hd'
    have hnu1 : '_' ∉ d1' := fun hm => absurd (hdig1' _ hm) (by decide)
    have hnu2 : '_' ∉ d2' ++ '.' :: e' := by
      intro hm
      rcases List.mem_append.mp hm with hm | hm
      · exact absurd (hdig2' _ hm) (by decide)
      · rcases List.mem_cons.mp hm with hm | hm
        · exact absurd hm (by decide)
        · rcases he' with rfl | rfl <;> simp at hm
    have hd'' : d1 ++ '_' :: (d2 ++ '.' :: ekind) = d1' ++ '_' :: (d2' ++ '.' :: e') := by
      have := hd'
      simpa [List.cons_append] using this
    obtain ⟨hd1eq, hrest⟩ := append_cons_inj '_' d1 (d2 ++ '.' :: ekind) d1'
      (d2' ++ '.' :: e') hnu1 hnu2 hd''
    have hnd2 : '.' ∉ d2' := fun hm => absurd (hdig2' _ hm) (by decide)
    have hnde : '.' ∉ e' := by rcases he' with rfl | rfl <;> decide
    obtain ⟨hd2eq, heeq⟩ := append_cons_inj '.' d2 ekind d2' e' hnd2 hnde hrest
    subst hd1eq
    subst hd2eq
    subst heeq
    have hbase : pathBase (pathClean name) = String.mk (d1 ++ '_' :: d2 ++ '.' :: ekind) := by
      have hmkd : String.mk (pathBase (pathClean name)).data = pathBase (pathClean name) := rfl
      rw [← hmkd, hdecomp]
    have hspec := parseTestcaseFilename_spec d1 d2 ekind hne1' hne2' hdig1' hdig2' he'
    constructor
    · intro hb1 hb2
      rw [hbase, hspec, if_pos hb1, if_pos hb2]
    · intro hover
      rcases hover with hov | hov
      · rw [hbase, hspec, if_neg (by omega)]
      · by_cases hb1 : digitsVal d1 ≤ maxGoInt
        · rw [hbase, hspec, if_pos hb1, if_neg (by omega)]
        · rw [hbase, hspec, if_neg hb1]

/-- C7 witness: `3_4.in` validates and parses to the triple `(3, 4, "in")`. -/
theorem C7_filename_validator_witness :
    parseTestcaseFilename (pathBase (pathClean "3_4.in")) = .ok (3, 4, "in") := by
  have h := ((C7_filename_validator "3_4.in").2.2 ['3'] ['4'] ['i', 'n']
    (by decide) (by decide)).1 (by decide) (by decide)
  exact h

end JJudge
